import Mathlib

/-!
# A k-d tree with rectangle queries (`KDTree.hpp`)

Shallow embedding of the class template `kdtree::KDTree<T, dim, NEW, DELETE, SET, LESS>`.

* A `T*` is a value of an arbitrary type `α`; the functors `NEW`, `SET` and `LESS` are the
  fields of a `Strategy α` (`DELETE` only releases memory and has no counterpart).
  A buffer that the code mutates through `SET` is threaded as a value.
* A `Node*` is a value of `Node α`; the null pointer is `Node.null`.
* Reading through a null pointer is a fault: every function that can do so returns `Option`,
  and `none` is the fault.
* `std::partial_sort` is library code; the embedding takes it as a parameter `partialSort`
  and the theorems assume only the postcondition the C++ standard gives it
  (`PartialSortSpec`).  `insertionPartialSort` is one function meeting that postcondition.
* `buildKDTree` recurses on lists of decreasing length; the embedding recurses on a budget
  (first argument) that the constructor sets to `values.size()`.  `none` from `buildKDTree`
  is a fault or an exhausted budget.
* Element counts and depths are natural numbers: the `int` and `unsigned int` counters of the
  source are taken to be wide enough for `values.size()`.
* The number of axes `dim` is the parameter `D`.  The theorems about construction assume
  `0 < D`, since `buildKDTree` evaluates `depth % dim`.
* Statements about the calls a method makes are stated on traces: `buildKDTreeCalls` and
  `queryRectangleCalls` follow `buildKDTree` and the recursive `queryRectangle` branch by
  branch and list the calls in the order they are made.  `BuiltFrom` relates the arguments
  of a call of `buildKDTree` to the node it returns.
-/

namespace kdtree

/-- The functors a `KDTree` is instantiated with: `NEW()()` allocates a buffer,
`SET()(destination, source, dim)` copies one axis (the updated destination is returned),
`LESS()(a, b, dim)` compares two elements on one axis. -/
structure Strategy (α : Type) where
  NEW : α
  SET : α → α → Nat → α
  LESS : α → α → Nat → Bool

/-- The `struct Node`: a pointer to a node is either null or points to a record of a value and
two child pointers. -/
inductive Node (α : Type) where
  | null : Node α
  | mk (value : α) (left right : Node α) : Node α
  deriving Repr, DecidableEq

/-- The two buffers `boundingBoxMin` and `boundingBoxMax`. -/
structure BoundingBox (α : Type) where
  boundingBoxMin : α
  boundingBoxMax : α
  deriving Repr, DecidableEq

/-- The class `KDTree`: the root pointer and the bounding box. -/
structure KDTree (α : Type) where
  root : Node α
  box : BoundingBox α
  deriving Repr, DecidableEq

variable {α : Type}

/-- One iteration of the loop of `updateBoundingBox`, for axis `d`. -/
def updateBoundingBoxAxis (S : Strategy α) (value : α) (bb : BoundingBox α) (d : Nat) :
    BoundingBox α :=
  if S.LESS value bb.boundingBoxMin d then
    { bb with boundingBoxMin := S.SET bb.boundingBoxMin value d }
  else if S.LESS bb.boundingBoxMax value d then
    { bb with boundingBoxMax := S.SET bb.boundingBoxMax value d }
  else bb

/-- The method `updateBoundingBox(node)`: reads `node->value`, so a null `node` is a fault. -/
def updateBoundingBox (S : Strategy α) (D : Nat) (bb : BoundingBox α) :
    Node α → Option (BoundingBox α)
  | .null => none
  | .mk value _ _ => some ((List.range D).foldl (updateBoundingBoxAxis S value) bb)

/-- The method `buildKDTree(values, depth)`, with the bounding box it updates threaded through.
The first argument bounds the recursion depth. -/
def buildKDTree (S : Strategy α) (D : Nat)
    (partialSort : (α → α → Bool) → Nat → List α → List α) :
    Nat → List α → Nat → BoundingBox α → Option (Node α × BoundingBox α)
  | 0, _, _, _ => none
  | fuel + 1, values, depth, bb =>
    let numberOfValues := values.length
    if numberOfValues = 1 then
      match values.head? with
      | none => none
      | some front =>
        let result := Node.mk front .null .null
        (updateBoundingBox S D bb result).map (fun bb1 => (result, bb1))
    else if numberOfValues > 0 then
      let sorted :=
        partialSort (fun i j => S.LESS i j (depth % D)) (numberOfValues / 2 + 1) values
      let pivot := numberOfValues / 2
      let leftValues := sorted.take pivot
      let rightValues := sorted.drop pivot
      match buildKDTree S D partialSort fuel leftValues (depth + 1) bb with
      | none => none
      | some (leftNode, bb1) =>
        match buildKDTree S D partialSort fuel rightValues (depth + 1) bb1 with
        | none => none
        | some (rightNode, bb2) =>
          match sorted[pivot]? with
          | none => none
          | some atPivot =>
            let result := Node.mk atPivot leftNode rightNode
            (updateBoundingBox S D bb2 result).map (fun bb3 => (result, bb3))
    else
      let result : Node α := .null
      (updateBoundingBox S D bb result).map (fun bb1 => (result, bb1))

/-- The method `reportSubtree(node, result)`; the returned list is what is pushed onto
`result`. -/
def reportSubtree : Node α → Option (List α)
  | .null => none
  | .mk value left right =>
    match left with
    | .null => some [value]
    | .mk _ _ _ =>
      match reportSubtree left, reportSubtree right with
      | some l, some r => some (l ++ r)
      | _, _ => none

/-- The method `regionContained`. -/
def regionContained (S : Strategy α) (D : Nat) (searchMin searchMax regionMin regionMax : α) :
    Bool :=
  (List.range D).all fun d => !(S.LESS regionMin searchMin d || S.LESS searchMax regionMax d)

/-- The method `regionIntersects`. -/
def regionIntersects (S : Strategy α) (D : Nat) (searchMin searchMax regionMin regionMax : α) :
    Bool :=
  (List.range D).all fun d => !(S.LESS regionMax searchMin d || S.LESS searchMax regionMin d)

/-- The loop of `nodeInSearchRange`, on the value read from the node. -/
def valueInSearchRange (S : Strategy α) (D : Nat) (searchMin searchMax value : α) : Bool :=
  (List.range D).all fun d => !(S.LESS value searchMin d || S.LESS searchMax value d)

/-- The method `nodeInSearchRange`; it reads `node->value`. -/
def nodeInSearchRange (S : Strategy α) (D : Nat) (searchMin searchMax : α) :
    Node α → Option Bool
  | .null => none
  | .mk value _ _ => some (valueInSearchRange S D searchMin searchMax value)

/-- The loop `for (i < dim) SET()(destination, source, i)` that fills a fresh region buffer. -/
def copyAxes (S : Strategy α) (D : Nat) (destination source : α) : α :=
  (List.range D).foldl (fun dst i => S.SET dst source i) destination

/-- The private recursive method `queryRectangle(node, searchMin, searchMax, currentRegionMin,
currentRegionMax, depth)`. -/
def queryRectangleRec (S : Strategy α) (D : Nat) (searchMin searchMax : α) :
    Node α → α → α → Nat → Option (List α)
  | .null, _, _, _ => none
  | .mk value left right, currentRegionMin, currentRegionMax, depth =>
    match left with
    | .null =>
      match nodeInSearchRange S D searchMin searchMax (.mk value left right) with
      | none => none
      | some inRange => if inRange then some [value] else some []
    | .mk _ _ _ =>
      let leftRegionMin := copyAxes S D S.NEW currentRegionMin
      let leftRegionMax := S.SET (copyAxes S D S.NEW currentRegionMax) value (depth % D)
      let rightRegionMin := S.SET (copyAxes S D S.NEW currentRegionMin) value (depth % D)
      let rightRegionMax := copyAxes S D S.NEW currentRegionMax
      let resultLeft :=
        if regionContained S D searchMin searchMax leftRegionMin leftRegionMax then
          reportSubtree left
        else if regionIntersects S D searchMin searchMax leftRegionMin leftRegionMax then
          queryRectangleRec S D searchMin searchMax left leftRegionMin leftRegionMax (depth + 1)
        else some []
      match resultLeft with
      | none => none
      | some l =>
        let resultRight :=
          if regionContained S D searchMin searchMax rightRegionMin rightRegionMax then
            reportSubtree right
          else if regionIntersects S D searchMin searchMax rightRegionMin rightRegionMax then
            queryRectangleRec S D searchMin searchMax right rightRegionMin rightRegionMax
              (depth + 1)
          else some []
        match resultRight with
        | none => none
        | some r => some (l ++ r)

/-- The constructor `KDTree(values)`. -/
def KDTree.construct (S : Strategy α) (D : Nat)
    (partialSort : (α → α → Bool) → Nat → List α → List α) (values : List α) :
    Option (KDTree α) :=
  match values with
  | [] => some { root := .null, box := { boundingBoxMin := S.NEW, boundingBoxMax := S.NEW } }
  | first :: _ =>
    let bb : BoundingBox α :=
      { boundingBoxMin := copyAxes S D S.NEW first, boundingBoxMax := copyAxes S D S.NEW first }
    (buildKDTree S D partialSort values.length values 0 bb).map
      fun p => { root := p.1, box := p.2 }

/-- The public method `queryRectangle(searchMin, searchMax)`. -/
def KDTree.queryRectangle (S : Strategy α) (D : Nat) (tree : KDTree α)
    (searchMin searchMax : α) : Option (List α) :=
  if (List.range D).any (fun d => S.LESS searchMax searchMin d) then some []
  else
    match tree.root with
    | .null => some []
    | .mk value left right =>
      queryRectangleRec S D searchMin searchMax (.mk value left right)
        tree.box.boundingBoxMin tree.box.boundingBoxMax 0

/-! ## The default instantiation `KDTree<T, dim>` -/

/-- A `T*` that points to an array `T[dim]`: the address of the array and its cells. -/
structure ArrayPtr (T : Type) where
  addr : Nat
  cell : Nat → T

/-- The functors `default_new`, `default_set` and `default_less`. A fresh array has address
`0` and cells of the given initial content. -/
def defaultStrategy (T : Type) [LT T] [DecidableRel (fun (a b : T) => a < b)] (init : T) :
    Strategy (ArrayPtr T) where
  NEW := { addr := 0, cell := fun _ => init }
  SET := fun destination source dim =>
    { destination with cell := Function.update destination.cell dim (source.cell dim) }
  LESS := fun a b dim => decide (a.cell dim < b.cell dim)

/-! ### The program `example1.cpp` -/

/-- The array `e1` of `example1.cpp`. -/
def example1.e1 : ArrayPtr Int := { addr := 1, cell := fun i => [1, 1, 1, 1, 1].getD i 0 }

/-- The array `e2` of `example1.cpp`. -/
def example1.e2 : ArrayPtr Int := { addr := 2, cell := fun i => [1, 1, 1, 1, 1].getD i 0 }

/-- The array `e3` of `example1.cpp`. -/
def example1.e3 : ArrayPtr Int := { addr := 3, cell := fun i => [1, 2, 2, 2, 9].getD i 0 }

/-- The array `e4` of `example1.cpp`. -/
def example1.e4 : ArrayPtr Int := { addr := 4, cell := fun i => [1, 1, 1, 2, 1].getD i 0 }

/-- The array `e5` of `example1.cpp`. -/
def example1.e5 : ArrayPtr Int := { addr := 5, cell := fun i => [8, 8, 8, 8, 8].getD i 0 }

/-- The vector `values` of `example1.cpp`. -/
def example1.values : List (ArrayPtr Int) :=
  [example1.e1, example1.e2, example1.e3, example1.e4, example1.e5]

/-- The array `searchRectMin` of `example1.cpp`. -/
def example1.searchRectMin : ArrayPtr Int :=
  { addr := 6, cell := fun i => [0, 0, 0, 0, 0].getD i 0 }

/-- The array `searchRectMax` of `example1.cpp`. -/
def example1.searchRectMax : ArrayPtr Int :=
  { addr := 7, cell := fun i => [2, 2, 2, 2, 2].getD i 0 }

/-- A second upper corner, `searchRectMax` raised to `9` on the last axis. -/
def example1.searchRectMaxRaised : ArrayPtr Int :=
  { addr := 8, cell := fun i => [2, 2, 2, 2, 9].getD i 0 }

/-- One admissible `std::partial_sort`: it sorts the whole range by insertion, which leaves the
`middle` smallest elements sorted in front. -/
def insertionPartialSort (lt : α → α → Bool) (_middle : Nat) (l : List α) : List α :=
  List.insertionSort (fun a b => lt b a = false) l

/-! ## Specification vocabulary -/

/-- A strict weak ordering, what the C++ standard requires of a comparator. -/
structure StrictWeakOrder (lt : α → α → Bool) : Prop where
  irrefl : ∀ a, lt a a = false
  trans : ∀ a b c, lt a b = true → lt b c = true → lt a c = true
  cotrans : ∀ a b c, lt a c = true → lt a b = true ∨ lt b c = true

/-- The postcondition of `std::partial_sort(first, first + middle, last, lt)`: the range is
permuted, its first `middle` elements are in order, and none of the others is below one of
them. -/
structure PartialSortSpec (partialSort : (α → α → Bool) → Nat → List α → List α) : Prop where
  perm : ∀ lt middle l, StrictWeakOrder lt → middle ≤ l.length →
    (partialSort lt middle l).Perm l
  sorted : ∀ lt middle l, StrictWeakOrder lt → middle ≤ l.length →
    ((partialSort lt middle l).take middle).Pairwise (fun a b => lt b a = false)
  rest : ∀ lt middle l, StrictWeakOrder lt → middle ≤ l.length →
    ∀ a ∈ (partialSort lt middle l).take middle, ∀ b ∈ (partialSort lt middle l).drop middle,
      lt b a = false

/-- The elements `a` and `b` have the same coordinate on axis `d`, as far as `LESS` can tell. -/
def AxisEq (S : Strategy α) (d : Nat) (a b : α) : Prop :=
  ∀ x, S.LESS a x d = S.LESS b x d ∧ S.LESS x a d = S.LESS x b d

/-- The assumptions on the strategy, on the axes below `D`: `LESS` is a strict order that is
total on coordinates, and `SET` copies the coordinate of one axis and leaves the others. -/
structure Strategy.Lawful (S : Strategy α) (D : Nat) : Prop where
  order : ∀ d, d < D → StrictWeakOrder (fun a b => S.LESS a b d)
  set_same : ∀ d, d < D → ∀ dst src, AxisEq S d (S.SET dst src d) src
  set_other : ∀ d e, d < D → e < D → e ≠ d → ∀ dst src, AxisEq S e (S.SET dst src d) dst

/-- The value `v` lies in the closed box from `lo` to `hi`: `lo[d] ≤ v[d] ≤ hi[d]` on every
axis `d < D`. -/
def Within (S : Strategy α) (D : Nat) (lo hi v : α) : Prop :=
  ∀ d, d < D → S.LESS v lo d = false ∧ S.LESS hi v d = false

/-- The leaf values below a node, left to right; a node is a leaf when its left pointer is
null. -/
def Node.leaves : Node α → List α
  | .null => []
  | .mk value left right =>
    match left with
    | .null => [value]
    | .mk _ _ _ => left.leaves ++ right.leaves

/-- The nodes of the tree below a pointer, the node it points to first. -/
def Node.nodes : Node α → List (Node α)
  | .null => []
  | .mk value left right => .mk value left right :: (left.nodes ++ right.nodes)

/-- The values stored in all nodes below a pointer, leaves and internal nodes. -/
def Node.values : Node α → List α
  | .null => []
  | .mk value left right => value :: (left.values ++ right.values)

/-- The shape of a tree: a leaf has two null children, an internal node two non-null ones. -/
inductive Node.Shaped : Node α → Prop
  | leaf (value : α) : Node.Shaped (.mk value .null .null)
  | inner (value : α) (left right : Node α) : left ≠ .null → right ≠ .null →
      Node.Shaped left → Node.Shaped right → Node.Shaped (.mk value left right)

/-- The k-d ordering of a subtree whose root is at the given depth: on axis `depth % D` the
leaves on the left are not above the stored value and the leaves on the right not below. -/
def Node.Ordered (S : Strategy α) (D : Nat) : Nat → Node α → Prop
  | _, .null => True
  | depth, .mk value left right =>
    (∀ x ∈ left.leaves, S.LESS value x (depth % D) = false) ∧
    (∀ x ∈ right.leaves, S.LESS x value (depth % D) = false) ∧
    Node.Ordered S D (depth + 1) left ∧ Node.Ordered S D (depth + 1) right

/-- The box `bb` is the tight box of the values `seen` on axis `d`: both corners are attained
by a value of `seen` and no value of `seen` is outside. -/
def TightAxis (S : Strategy α) (d : Nat) (bb : BoundingBox α) (seen : List α) : Prop :=
  (∃ e ∈ seen, AxisEq S d bb.boundingBoxMin e) ∧
  (∀ e ∈ seen, S.LESS e bb.boundingBoxMin d = false) ∧
  (∃ e ∈ seen, AxisEq S d bb.boundingBoxMax e) ∧
  (∀ e ∈ seen, S.LESS bb.boundingBoxMax e d = false)

/-- The box `bb` is the tight box of `seen` on every axis below `D`. -/
def Tight (S : Strategy α) (D : Nat) (bb : BoundingBox α) (seen : List α) : Prop :=
  ∀ d, d < D → TightAxis S d bb seen

/-! ### The program `example2.cpp` -/

/-- The struct `P` of `example2.cpp`. The field `d1` is a `double` in the source; the program
only compares it, so it is a rational number here. -/
structure P where
  d0 : Int
  d1 : Rat
  d2 : String
  deriving DecidableEq, Repr

/-- The functor `P_new`: a fresh `P(0, 0, "")`. -/
def P_new : P := { d0 := 0, d1 := 0, d2 := "" }

/-- The functor `P_less`. For a `dim` above `2` the source returns nothing; the value is
`false` here. -/
def P_less (a b : P) (dim : Nat) : Bool :=
  if dim = 0 then decide (a.d0 < b.d0)
  else if dim = 1 then decide (a.d1 < b.d1)
  else if dim = 2 then decide (a.d2 < b.d2)
  else false

/-- The functor `P_set`; the updated destination is returned. -/
def P_set (destination source : P) (dim : Nat) : P :=
  if dim = 0 then { destination with d0 := source.d0 }
  else if dim = 1 then { destination with d1 := source.d1 }
  else if dim = 2 then { destination with d2 := source.d2 }
  else destination

/-- The instantiation `KDTree<P, dim, P_new, P_delete, P_set, P_less>` of `example2.cpp`. -/
def example2.strategy : Strategy P := { NEW := P_new, SET := P_set, LESS := P_less }

/-- The object `p1` of `example2.cpp`. -/
def example2.p1 : P := { d0 := 0, d1 := 2, d2 := "a" }

/-- The object `p2` of `example2.cpp`. -/
def example2.p2 : P := { d0 := 1, d1 := 2, d2 := "b" }

/-- The object `p3` of `example2.cpp`. -/
def example2.p3 : P := { d0 := 1, d1 := 2, d2 := "c" }

/-- The object `p4` of `example2.cpp`. -/
def example2.p4 : P := { d0 := 1, d1 := 7, d2 := "d" }

/-- The object `p5` of `example2.cpp`. -/
def example2.p5 : P := { d0 := 1, d1 := 2, d2 := "e" }

/-- The vector `values` of `example2.cpp`. -/
def example2.values : List P :=
  [example2.p1, example2.p2, example2.p3, example2.p4, example2.p5]

/-- The object `searchRectMin` of `example2.cpp`. -/
def example2.searchRectMin : P := { d0 := 0, d1 := 0, d2 := "b" }

/-- The object `searchRectMax` of `example2.cpp`. -/
def example2.searchRectMax : P := { d0 := 2, d1 := 6, d2 := "d" }

/-! ## Traces and reference definitions -/

/-- The tree that `buildKDTree(values, depth)` builds, as a relation between the arguments
of a call and the node it returns: a list of one element gives a leaf; a longer list is
partially sorted and split at `pivot = numberOfValues / 2`, the two parts are built at
`depth + 1` and the node stores the element at the pivot. -/
inductive BuiltFrom (S : Strategy α) (D : Nat)
    (partialSort : (α → α → Bool) → Nat → List α → List α) : List α → Nat → Node α → Prop
  | leaf (front : α) (depth : Nat) :
      BuiltFrom S D partialSort [front] depth (.mk front .null .null)
  | inner (values : List α) (depth : Nat) (atPivot : α) (leftNode rightNode : Node α) :
      2 ≤ values.length →
      (partialSort (fun i j => S.LESS i j (depth % D)) (values.length / 2 + 1)
        values)[values.length / 2]? = some atPivot →
      BuiltFrom S D partialSort
        ((partialSort (fun i j => S.LESS i j (depth % D)) (values.length / 2 + 1) values).take
          (values.length / 2)) (depth + 1) leftNode →
      BuiltFrom S D partialSort
        ((partialSort (fun i j => S.LESS i j (depth % D)) (values.length / 2 + 1) values).drop
          (values.length / 2)) (depth + 1) rightNode →
      BuiltFrom S D partialSort values depth (.mk atPivot leftNode rightNode)

/-- A call of `buildKDTree`: its arguments and, for a recursive call, the `numberOfValues` of
the call that made it. -/
structure BuildCall (α : Type) where
  values : List α
  depth : Nat
  callerSize : Option Nat

/-- The calls of `buildKDTree` that the call on `(values, depth)` makes, itself first, in the
order they are made. It follows `buildKDTree` branch by branch; the right call is made only
when the left call has returned. The result is `none` only when the budget (first argument)
is exhausted. -/
def buildKDTreeCalls (S : Strategy α) (D : Nat)
    (partialSort : (α → α → Bool) → Nat → List α → List α) :
    Nat → List α → Nat → BoundingBox α → Option Nat → Option (List (BuildCall α))
  | 0, _, _, _, _ => none
  | fuel + 1, values, depth, bb, callerSize =>
    let numberOfValues := values.length
    let thisCall : BuildCall α := { values := values, depth := depth, callerSize := callerSize }
    if numberOfValues = 1 then some [thisCall]
    else if numberOfValues > 0 then
      let sorted :=
        partialSort (fun i j => S.LESS i j (depth % D)) (numberOfValues / 2 + 1) values
      let pivot := numberOfValues / 2
      let leftValues := sorted.take pivot
      let rightValues := sorted.drop pivot
      match buildKDTreeCalls S D partialSort fuel leftValues (depth + 1) bb
          (some numberOfValues) with
      | none => none
      | some leftCalls =>
        match buildKDTree S D partialSort fuel leftValues (depth + 1) bb with
        | none => some (thisCall :: leftCalls)
        | some (_, bb1) =>
          match buildKDTreeCalls S D partialSort fuel rightValues (depth + 1) bb1
              (some numberOfValues) with
          | none => none
          | some rightCalls => some (thisCall :: (leftCalls ++ rightCalls))
    else some [thisCall]

/-- The calls of `buildKDTree` that the constructor `KDTree(values)` makes. -/
def KDTree.constructCalls (S : Strategy α) (D : Nat)
    (partialSort : (α → α → Bool) → Nat → List α → List α) (values : List α) :
    Option (List (BuildCall α)) :=
  match values with
  | [] => some []
  | first :: _ =>
    let bb : BoundingBox α :=
      { boundingBoxMin := copyAxes S D S.NEW first, boundingBoxMax := copyAxes S D S.NEW first }
    buildKDTreeCalls S D partialSort values.length values 0 bb none

/-- A call that a query makes: a recursive call of the private `queryRectangle` with the
region it is passed, or a call of `reportSubtree` from the containment branch with the region
that was found contained. -/
structure QueryCall (α : Type) where
  isReport : Bool
  node : Node α
  regionMin : α
  regionMax : α
  depth : Nat

/-- The calls that the private `queryRectangle(node, searchMin, searchMax, currentRegionMin,
currentRegionMax, depth)` makes, itself first, in the order they are made. It follows
`queryRectangleRec` branch by branch; the right child is treated only when the treatment of
the left child has returned. -/
def queryRectangleCalls (S : Strategy α) (D : Nat) (searchMin searchMax : α) :
    Node α → α → α → Nat → List (QueryCall α)
  | .null, currentRegionMin, currentRegionMax, depth =>
    [{ isReport := false, node := .null, regionMin := currentRegionMin,
       regionMax := currentRegionMax, depth := depth }]
  | .mk value left right, currentRegionMin, currentRegionMax, depth =>
    { isReport := false, node := .mk value left right, regionMin := currentRegionMin,
      regionMax := currentRegionMax, depth := depth } ::
    match left with
    | .null => []
    | .mk _ _ _ =>
      let leftRegionMin := copyAxes S D S.NEW currentRegionMin
      let leftRegionMax := S.SET (copyAxes S D S.NEW currentRegionMax) value (depth % D)
      let rightRegionMin := S.SET (copyAxes S D S.NEW currentRegionMin) value (depth % D)
      let rightRegionMax := copyAxes S D S.NEW currentRegionMax
      let leftCalls : List (QueryCall α) :=
        if regionContained S D searchMin searchMax leftRegionMin leftRegionMax then
          [{ isReport := true, node := left, regionMin := leftRegionMin,
             regionMax := leftRegionMax, depth := depth + 1 }]
        else if regionIntersects S D searchMin searchMax leftRegionMin leftRegionMax then
          queryRectangleCalls S D searchMin searchMax left leftRegionMin leftRegionMax
            (depth + 1)
        else []
      let resultLeft :=
        if regionContained S D searchMin searchMax leftRegionMin leftRegionMax then
          reportSubtree left
        else if regionIntersects S D searchMin searchMax leftRegionMin leftRegionMax then
          queryRectangleRec S D searchMin searchMax left leftRegionMin leftRegionMax (depth + 1)
        else some []
      match resultLeft with
      | none => leftCalls
      | some _ =>
        let rightCalls : List (QueryCall α) :=
          if regionContained S D searchMin searchMax rightRegionMin rightRegionMax then
            [{ isReport := true, node := right, regionMin := rightRegionMin,
               regionMax := rightRegionMax, depth := depth + 1 }]
          else if regionIntersects S D searchMin searchMax rightRegionMin rightRegionMax then
            queryRectangleCalls S D searchMin searchMax right rightRegionMin rightRegionMax
              (depth + 1)
          else []
        leftCalls ++ rightCalls

/-- The calls that the public `queryRectangle(searchMin, searchMax)` makes. -/
def KDTree.queryRectangleCalls (S : Strategy α) (D : Nat) (tree : KDTree α)
    (searchMin searchMax : α) : List (QueryCall α) :=
  if (List.range D).any (fun d => S.LESS searchMax searchMin d) then []
  else
    match tree.root with
    | .null => []
    | .mk value left right =>
      kdtree.queryRectangleCalls S D searchMin searchMax (.mk value left right)
        tree.box.boundingBoxMin tree.box.boundingBoxMax 0

/-- The loop body of `updateBoundingBox` with the two checks made independently: the second
`if` is not an `else if`. -/
def updateBoundingBoxAxisIndependent (S : Strategy α) (value : α) (bb : BoundingBox α)
    (d : Nat) : BoundingBox α :=
  let bb1 : BoundingBox α :=
    if S.LESS value bb.boundingBoxMin d then
      { bb with boundingBoxMin := S.SET bb.boundingBoxMin value d }
    else bb
  if S.LESS bb1.boundingBoxMax value d then
    { bb1 with boundingBoxMax := S.SET bb1.boundingBoxMax value d }
  else bb1

/-- The method `updateBoundingBox` with the two checks made independently. -/
def updateBoundingBoxIndependent (S : Strategy α) (D : Nat) (bb : BoundingBox α) :
    Node α → Option (BoundingBox α)
  | .null => none
  | .mk value _ _ =>
    some ((List.range D).foldl (updateBoundingBoxAxisIndependent S value) bb)

/-- The unpruned traversal: `reportSubtree` on the root, filtered by `nodeInSearchRange`
(each value tested as the leaf that holds it). -/
def unprunedQuery (S : Strategy α) (D : Nat) (tree : KDTree α) (searchMin searchMax : α) :
    Option (List α) :=
  (reportSubtree tree.root).map fun all =>
    all.filter fun value =>
      nodeInSearchRange S D searchMin searchMax (.mk value .null .null) == some true

/-- The nodes below a pointer, each with its depth, when the pointer is at `depth`. -/
def Node.nodesAt : Nat → Node α → List (Nat × Node α)
  | _, .null => []
  | depth, .mk value left right =>
    (depth, .mk value left right) :: (left.nodesAt (depth + 1) ++ right.nodesAt (depth + 1))

/-- A node is internal when its left pointer is not null, the test of the source. -/
def Node.isInternal : Node α → Bool
  | .null => false
  | .mk _ left _ =>
    match left with
    | .null => false
    | .mk _ _ _ => true

/-- The number of edges on the longest path from a node down to a leaf. -/
def Node.height : Node α → Nat
  | .null => 0
  | .mk _ left right =>
    match left with
    | .null => 0
    | .mk _ _ _ => 1 + max left.height right.height

/-! ## Order lemmas -/

theorem AxisEq.refl (S : Strategy α) (d : Nat) (a : α) : AxisEq S d a a :=
  fun _ => ⟨rfl, rfl⟩

theorem AxisEq.symm {S : Strategy α} {d : Nat} {a b : α} (h : AxisEq S d a b) :
    AxisEq S d b a :=
  fun x => ⟨(h x).1.symm, (h x).2.symm⟩

theorem AxisEq.trans {S : Strategy α} {d : Nat} {a b c : α} (h₁ : AxisEq S d a b)
    (h₂ : AxisEq S d b c) : AxisEq S d a c :=
  fun x => ⟨(h₁ x).1.trans (h₂ x).1, (h₁ x).2.trans (h₂ x).2⟩

/-- From `a ≤ b` and `b ≤ c` follows `a ≤ c`, where `x ≤ y` is `lt y x = false`. -/
theorem StrictWeakOrder.le_trans {lt : α → α → Bool} (h : StrictWeakOrder lt) {a b c : α}
    (hab : lt b a = false) (hbc : lt c b = false) : lt c a = false := by
  cases hca : lt c a with
  | false => rfl
  | true =>
    rcases h.cotrans c b a hca with h1 | h1
    · rw [h1] at hbc; cases hbc
    · rw [h1] at hab; cases hab

/-- From `a < b` and `b ≤ c` follows `a < c`. -/
theorem StrictWeakOrder.lt_of_lt_of_le {lt : α → α → Bool} (h : StrictWeakOrder lt)
    {a b c : α} (hab : lt a b = true) (hbc : lt c b = false) : lt a c = true := by
  rcases h.cotrans a c b hab with h1 | h1
  · exact h1
  · rw [h1] at hbc; cases hbc

/-- From `a ≤ b` and `b < c` follows `a < c`. -/
theorem StrictWeakOrder.lt_of_le_of_lt {lt : α → α → Bool} (h : StrictWeakOrder lt)
    {a b c : α} (hab : lt b a = false) (hbc : lt b c = true) : lt a c = true := by
  rcases h.cotrans b a c hbc with h1 | h1
  · rw [h1] at hab; cases hab
  · exact h1

/-- A strict order is asymmetric. -/
theorem StrictWeakOrder.asymm {lt : α → α → Bool} (h : StrictWeakOrder lt) {a b : α}
    (hab : lt a b = true) : lt b a = false := by
  cases hba : lt b a with
  | false => rfl
  | true =>
    have := h.trans a b a hab hba
    rw [h.irrefl a] at this; cases this

/-! ## The loops over the axes -/

theorem valueInSearchRange_iff (S : Strategy α) (D : Nat) (searchMin searchMax value : α) :
    valueInSearchRange S D searchMin searchMax value = true ↔
      Within S D searchMin searchMax value := by
  simp only [valueInSearchRange, Within, List.all_eq_true, List.mem_range, Bool.not_eq_true',
    Bool.or_eq_false_iff]

theorem regionContained_iff (S : Strategy α) (D : Nat)
    (searchMin searchMax regionMin regionMax : α) :
    regionContained S D searchMin searchMax regionMin regionMax = true ↔
      ∀ d, d < D →
        S.LESS regionMin searchMin d = false ∧ S.LESS searchMax regionMax d = false := by
  simp only [regionContained, List.all_eq_true, List.mem_range, Bool.not_eq_true',
    Bool.or_eq_false_iff]

theorem regionIntersects_eq_false_iff (S : Strategy α) (D : Nat)
    (searchMin searchMax regionMin regionMax : α) :
    regionIntersects S D searchMin searchMax regionMin regionMax = false ↔
      ∃ d, d < D ∧
        (S.LESS regionMax searchMin d = true ∨ S.LESS searchMax regionMin d = true) := by
  rw [← Bool.not_eq_true, regionIntersects, List.all_eq_true]
  simp only [List.mem_range, Bool.not_eq_true', Bool.or_eq_false_iff, not_forall,
    Classical.not_imp, not_and_or, Bool.not_eq_false, exists_prop]

theorem copyAxes_axisEq {S : Strategy α} {D : Nat} (hS : S.Lawful D) (destination source : α) :
    ∀ d, d < D → AxisEq S d (copyAxes S D destination source) source := by
  have key : ∀ n, n ≤ D → ∀ d, d < n →
      AxisEq S d ((List.range n).foldl (fun dst i => S.SET dst source i) destination) source := by
    intro n
    induction n with
    | zero => intro _ d hd; omega
    | succ n ih =>
      intro hn d hd
      rw [List.range_succ, List.foldl_append]
      simp only [List.foldl_cons, List.foldl_nil]
      by_cases hdn : d = n
      · subst hdn
        exact hS.set_same d (by omega) _ _
      · exact (hS.set_other n d (by omega) (by omega) hdn _ _).trans
          (ih (by omega) d (by omega))
  exact key D (le_refl D)

/-! ## The bounding box -/

theorem TightAxis.congr {S : Strategy α} {d : Nat} {bb bb' : BoundingBox α} {seen : List α}
    (hmin : AxisEq S d bb'.boundingBoxMin bb.boundingBoxMin)
    (hmax : AxisEq S d bb'.boundingBoxMax bb.boundingBoxMax)
    (h : TightAxis S d bb seen) : TightAxis S d bb' seen := by
  obtain ⟨⟨e₁, he₁, h₁⟩, h₂, ⟨e₂, he₂, h₃⟩, h₄⟩ := h
  refine ⟨⟨e₁, he₁, hmin.trans h₁⟩, ?_, ⟨e₂, he₂, hmax.trans h₃⟩, ?_⟩
  · intro e he; rw [(hmin e).2]; exact h₂ e he
  · intro e he; rw [(hmax e).1]; exact h₄ e he

theorem TightAxis.congr_mem {S : Strategy α} {d : Nat} {bb : BoundingBox α}
    {seen seen' : List α} (hmem : ∀ e, e ∈ seen ↔ e ∈ seen') (h : TightAxis S d bb seen) :
    TightAxis S d bb seen' := by
  obtain ⟨⟨e₁, he₁, h₁⟩, h₂, ⟨e₂, he₂, h₃⟩, h₄⟩ := h
  exact ⟨⟨e₁, (hmem e₁).1 he₁, h₁⟩, fun e he => h₂ e ((hmem e).2 he),
    ⟨e₂, (hmem e₂).1 he₂, h₃⟩, fun e he => h₄ e ((hmem e).2 he)⟩

theorem updateBoundingBoxAxis_other {S : Strategy α} {D : Nat} (hS : S.Lawful D) (value : α)
    (bb : BoundingBox α) {d e : Nat} (hd : d < D) (he : e < D) (hne : e ≠ d) :
    AxisEq S e (updateBoundingBoxAxis S value bb d).boundingBoxMin bb.boundingBoxMin ∧
    AxisEq S e (updateBoundingBoxAxis S value bb d).boundingBoxMax bb.boundingBoxMax := by
  unfold updateBoundingBoxAxis
  split
  · exact ⟨hS.set_other d e hd he hne _ _, AxisEq.refl S e _⟩
  · split
    · exact ⟨AxisEq.refl S e _, hS.set_other d e hd he hne _ _⟩
    · exact ⟨AxisEq.refl S e _, AxisEq.refl S e _⟩

theorem updateBoundingBoxAxis_same {S : Strategy α} {D : Nat} (hS : S.Lawful D) (value : α)
    (bb : BoundingBox α) {d : Nat} (hd : d < D) {seen : List α} (h : TightAxis S d bb seen) :
    TightAxis S d (updateBoundingBoxAxis S value bb d) (value :: seen) := by
  have ho := hS.order d hd
  obtain ⟨⟨e₁, he₁, h₁⟩, h₂, ⟨e₂, he₂, h₃⟩, h₄⟩ := h
  -- the corners are in order: `max < min` is impossible
  have hmm : S.LESS bb.boundingBoxMax bb.boundingBoxMin d = false := by
    rw [(h₁ _).2]; exact h₄ e₁ he₁
  unfold updateBoundingBoxAxis
  by_cases c₁ : S.LESS value bb.boundingBoxMin d = true
  · rw [if_pos c₁]
    have hs := hS.set_same d hd bb.boundingBoxMin value
    refine ⟨⟨value, List.mem_cons_self _ _, hs⟩, ?_,
      ⟨e₂, List.mem_cons_of_mem _ he₂, h₃⟩, ?_⟩
    · intro e he
      show S.LESS e (S.SET bb.boundingBoxMin value d) d = false
      rw [(hs e).2]
      rcases List.mem_cons.1 he with rfl | he
      · exact ho.irrefl e
      · cases hev : S.LESS e value d with
        | false => rfl
        | true =>
          have := ho.trans e value bb.boundingBoxMin hev c₁
          rw [h₂ e he] at this; cases this
    · intro e he
      show S.LESS bb.boundingBoxMax e d = false
      rcases List.mem_cons.1 he with rfl | he
      · cases hev : S.LESS bb.boundingBoxMax e d with
        | false => rfl
        | true =>
          have := ho.trans bb.boundingBoxMax e bb.boundingBoxMin hev c₁
          rw [hmm] at this; cases this
      · exact h₄ e he
  · rw [if_neg c₁]
    have c₁' : S.LESS value bb.boundingBoxMin d = false := by simpa using c₁
    by_cases c₂ : S.LESS bb.boundingBoxMax value d = true
    · rw [if_pos c₂]
      have hs := hS.set_same d hd bb.boundingBoxMax value
      refine ⟨⟨e₁, List.mem_cons_of_mem _ he₁, h₁⟩, ?_, ⟨value, List.mem_cons_self _ _, hs⟩, ?_⟩
      · intro e he
        show S.LESS e bb.boundingBoxMin d = false
        rcases List.mem_cons.1 he with rfl | he
        · exact c₁'
        · exact h₂ e he
      · intro e he
        show S.LESS (S.SET bb.boundingBoxMax value d) e d = false
        rw [(hs e).1]
        rcases List.mem_cons.1 he with rfl | he
        · exact ho.irrefl e
        · cases hev : S.LESS value e d with
          | false => rfl
          | true =>
            have := ho.trans bb.boundingBoxMax value e c₂ hev
            rw [h₄ e he] at this; cases this
    · rw [if_neg c₂]
      have c₂' : S.LESS bb.boundingBoxMax value d = false := by simpa using c₂
      refine ⟨⟨e₁, List.mem_cons_of_mem _ he₁, h₁⟩, ?_, ⟨e₂, List.mem_cons_of_mem _ he₂, h₃⟩, ?_⟩
      · intro e he
        rcases List.mem_cons.1 he with rfl | he
        · exact c₁'
        · exact h₂ e he
      · intro e he
        rcases List.mem_cons.1 he with rfl | he
        · exact c₂'
        · exact h₄ e he

/-- Folding a value into a tight box gives the tight box of the enlarged set. -/
theorem updateBoundingBox_loop_tight {S : Strategy α} {D : Nat} (hS : S.Lawful D) (value : α)
    (bb : BoundingBox α) {seen : List α} (h : Tight S D bb seen) :
    Tight S D ((List.range D).foldl (updateBoundingBoxAxis S value) bb) (value :: seen) := by
  have key : ∀ n, n ≤ D →
      (∀ d, d < n →
        TightAxis S d ((List.range n).foldl (updateBoundingBoxAxis S value) bb) (value :: seen)) ∧
      (∀ d, n ≤ d → d < D →
        TightAxis S d ((List.range n).foldl (updateBoundingBoxAxis S value) bb) seen) := by
    intro n
    induction n with
    | zero =>
      intro _
      exact ⟨fun d hd => by omega, fun d _ hd => h d hd⟩
    | succ n ih =>
      intro hn
      obtain ⟨ih₁, ih₂⟩ := ih (by omega)
      rw [List.range_succ, List.foldl_append]
      simp only [List.foldl_cons, List.foldl_nil]
      constructor
      · intro d hd
        by_cases hdn : d = n
        · subst hdn
          exact updateBoundingBoxAxis_same hS value _ (by omega) (ih₂ d (le_refl d) (by omega))
        · have ho := updateBoundingBoxAxis_other hS value
            ((List.range n).foldl (updateBoundingBoxAxis S value) bb)
            (show n < D by omega) (show d < D by omega) hdn
          exact (ih₁ d (by omega)).congr ho.1 ho.2
      · intro d hnd hd
        have ho := updateBoundingBoxAxis_other hS value
          ((List.range n).foldl (updateBoundingBoxAxis S value) bb)
          (show n < D by omega) hd (show d ≠ n by omega)
        exact (ih₂ d (by omega) hd).congr ho.1 ho.2
  exact fun d hd => (key D (le_refl D)).1 d hd

/-- The box the constructor starts from is the tight box of the first element. -/
theorem initial_box_tight {S : Strategy α} {D : Nat} (hS : S.Lawful D) (first : α) :
    Tight S D { boundingBoxMin := copyAxes S D S.NEW first,
                boundingBoxMax := copyAxes S D S.NEW first } [first] := by
  intro d hd
  have hc := copyAxes_axisEq hS S.NEW first d hd
  have ho := hS.order d hd
  refine ⟨⟨first, List.mem_singleton_self _, hc⟩, ?_, ⟨first, List.mem_singleton_self _, hc⟩, ?_⟩
  · intro e he
    rw [List.mem_singleton.1 he]
    show S.LESS first (copyAxes S D S.NEW first) d = false
    rw [(hc first).2]; exact ho.irrefl first
  · intro e he
    rw [List.mem_singleton.1 he]
    show S.LESS (copyAxes S D S.NEW first) first d = false
    rw [(hc first).1]; exact ho.irrefl first

/-! ## The tree builder -/

theorem Tight.congr_seen {S : Strategy α} {D : Nat} {bb : BoundingBox α}
    {seen seen' : List α} (hmem : ∀ e, e ∈ seen ↔ e ∈ seen') (h : Tight S D bb seen) :
    Tight S D bb seen' :=
  fun d hd => (h d hd).congr_mem hmem

theorem Node.Shaped.ne_null {n : Node α} (h : n.Shaped) : n ≠ .null := by
  cases h <;> simp

theorem Node.leaves_mk_of_ne_null (value : α) {left : Node α} (right : Node α)
    (h : left ≠ .null) : (Node.mk value left right).leaves = left.leaves ++ right.leaves := by
  cases left with
  | null => exact absurd rfl h
  | mk _ _ _ => simp [Node.leaves]

theorem Node.leaves_subset_values (n : Node α) : ∀ x ∈ n.leaves, x ∈ n.values := by
  induction n with
  | null => intro x hx; simp [Node.leaves] at hx
  | mk value left right ihl ihr =>
    intro x hx
    cases left with
    | null =>
      simp only [Node.leaves, List.mem_singleton] at hx
      simp [Node.values, hx]
    | mk v l r =>
      rw [Node.leaves_mk_of_ne_null _ _ (by simp)] at hx
      simp only [Node.values, List.mem_cons, List.mem_append] at ihl ihr ⊢
      rcases List.mem_append.1 hx with h | h
      · exact Or.inr (Or.inl (ihl x h))
      · exact Or.inr (Or.inr (ihr x h))

/-- What `buildKDTree` returns on a non-empty list, given enough budget: a well-shaped,
k-d ordered tree whose leaves are the input, and the tight box of what it has folded in. -/
theorem buildKDTree_spec {S : Strategy α} {D : Nat}
    {partialSort : (α → α → Bool) → Nat → List α → List α}
    (hS : S.Lawful D) (hD : 0 < D) (hP : PartialSortSpec partialSort) :
    ∀ (fuel : Nat) (values : List α) (depth : Nat) (bb : BoundingBox α) (seen : List α),
      values ≠ [] → values.length ≤ fuel → Tight S D bb seen →
      ∃ node bb', buildKDTree S D partialSort fuel values depth bb = some (node, bb') ∧
        node.Shaped ∧ node.leaves.Perm values ∧ node.Ordered S D depth ∧
        (∀ v ∈ node.values, v ∈ values) ∧ Tight S D bb' (node.values ++ seen) := by
  intro fuel
  induction fuel with
  | zero =>
    intro values depth bb seen hne hlen _
    cases values with
    | nil => exact absurd rfl hne
    | cons a l => simp at hlen
  | succ fuel ih =>
    intro values depth bb seen hne hlen hT
    by_cases h1 : values.length = 1
    · obtain ⟨x, rfl⟩ := List.length_eq_one.1 h1
      refine ⟨.mk x .null .null, (List.range D).foldl (updateBoundingBoxAxis S x) bb, ?_,
        Node.Shaped.leaf x, ?_, ?_, ?_, ?_⟩
      · simp [buildKDTree, updateBoundingBox]
      · simp [Node.leaves]
      · simp [Node.Ordered, Node.leaves]
      · simp [Node.values]
      · simpa [Node.values] using updateBoundingBox_loop_tight hS x bb hT
    · have hpos : 0 < values.length := List.length_pos.2 hne
      have hn2 : 2 ≤ values.length := by omega
      have hax : depth % D < D := Nat.mod_lt _ hD
      have ho := hS.order (depth % D) hax
      have hmid : values.length / 2 + 1 ≤ values.length := by omega
      have hperm := hP.perm _ _ values ho hmid
      have hsorted := hP.sorted _ _ values ho hmid
      have hrest := hP.rest _ _ values ho hmid
      generalize hsd : partialSort (fun i j => S.LESS i j (depth % D)) (values.length / 2 + 1)
        values = sorted at hperm hsorted hrest
      have hslen : sorted.length = values.length := hperm.length_eq
      have hpl : values.length / 2 < sorted.length := by omega
      -- the two recursive calls
      have hll : (sorted.take (values.length / 2)).length = values.length / 2 := by
        rw [List.length_take]; omega
      have hrl : (sorted.drop (values.length / 2)).length =
          values.length - values.length / 2 := by
        rw [List.length_drop]; omega
      have hlne : sorted.take (values.length / 2) ≠ [] := by
        intro h
        rw [h] at hll
        simp at hll; omega
      have hrne : sorted.drop (values.length / 2) ≠ [] := by
        intro h
        rw [h] at hrl
        simp at hrl; omega
      obtain ⟨ln, bb1, hl, hlS, hlP, hlO, hlV, hlT⟩ :=
        ih (sorted.take (values.length / 2)) (depth + 1) bb seen hlne
          (by omega) hT
      obtain ⟨rn, bb2, hr, hrS, hrP, hrO, hrV, hrT⟩ :=
        ih (sorted.drop (values.length / 2)) (depth + 1) bb1 (ln.values ++ seen) hrne
          (by omega) hlT
      have hget : sorted[values.length / 2]? = some (sorted[values.length / 2]) :=
        List.getElem?_eq_getElem hpl
      refine ⟨.mk (sorted[values.length / 2]) ln rn,
        (List.range D).foldl (updateBoundingBoxAxis S (sorted[values.length / 2])) bb2,
        ?_, ?_, ?_, ?_, ?_, ?_⟩
      · rw [buildKDTree]
        simp only [h1, hpos, if_false, if_true, gt_iff_lt, hsd, hl, hr, hget, updateBoundingBox,
          Option.map_some']
      · exact Node.Shaped.inner _ _ _ hlS.ne_null hrS.ne_null hlS hrS
      · rw [Node.leaves_mk_of_ne_null _ _ hlS.ne_null]
        refine ((hlP.append hrP).trans ?_).trans hperm
        rw [List.take_append_drop]
      · refine ⟨?_, ?_, hlO, hrO⟩
        · intro x hx
          have hx' : x ∈ sorted.take (values.length / 2) := hlP.subset hx
          have htk : sorted.take (values.length / 2 + 1) =
              sorted.take (values.length / 2) ++ [sorted[values.length / 2]] := by
            rw [List.take_succ, hget]; rfl
          rw [htk, List.pairwise_append] at hsorted
          exact hsorted.2.2 x hx' _ (List.mem_singleton_self _)
        · intro x hx
          have hx' : x ∈ sorted.drop (values.length / 2) := hrP.subset hx
          rw [List.drop_eq_getElem_cons hpl] at hx'
          rcases List.mem_cons.1 hx' with rfl | hx2
          · exact ho.irrefl _
          · refine hrest _ ?_ x hx2
            rw [List.take_succ, hget]
            exact List.mem_append_right _ (by simp)
      · intro v hv
        simp only [Node.values, List.mem_cons, List.mem_append] at hv
        rcases hv with rfl | hv | hv
        · exact hperm.subset (List.getElem_mem _)
        · exact hperm.subset (List.mem_of_mem_take (hlV v hv))
        · exact hperm.subset (List.mem_of_mem_drop (hrV v hv))
      · have := updateBoundingBox_loop_tight hS (sorted[values.length / 2]) bb2 hrT
        refine this.congr_seen ?_
        intro e
        simp only [Node.values, List.mem_cons, List.mem_append, List.cons_append]
        tauto

/-! ## The range query -/

theorem reportSubtree_of_shaped {n : Node α} (h : n.Shaped) : reportSubtree n = some n.leaves := by
  induction h with
  | leaf value => simp [reportSubtree, Node.leaves]
  | inner value left right hl hr _ _ ihl ihr =>
    rw [Node.leaves_mk_of_ne_null _ _ hl]
    cases left with
    | null => exact absurd rfl hl
    | mk lv ll lr => simp only [reportSubtree] at ihl ⊢; simp only [ihl, ihr]

/-- A value inside a region that the search rectangle contains is in the search range. -/
theorem within_of_regionContained {S : Strategy α} {D : Nat} (hS : S.Lawful D)
    {searchMin searchMax regionMin regionMax x : α}
    (hc : regionContained S D searchMin searchMax regionMin regionMax = true)
    (hx : Within S D regionMin regionMax x) : Within S D searchMin searchMax x := by
  intro d hd
  have ho := hS.order d hd
  have h1 := (regionContained_iff S D _ _ _ _).1 hc d hd
  have h2 := hx d hd
  exact ⟨ho.le_trans (a := searchMin) (b := regionMin) (c := x) h1.1 h2.1,
    ho.le_trans (a := x) (b := regionMax) (c := searchMax) h2.2 h1.2⟩

/-- A value inside a region that misses the search rectangle is not in the search range. -/
theorem not_within_of_not_regionIntersects {S : Strategy α} {D : Nat} (hS : S.Lawful D)
    {searchMin searchMax regionMin regionMax x : α}
    (hi : regionIntersects S D searchMin searchMax regionMin regionMax = false)
    (hx : Within S D regionMin regionMax x) : ¬ Within S D searchMin searchMax x := by
  intro hw
  obtain ⟨d, hd, h⟩ := (regionIntersects_eq_false_iff S D _ _ _ _).1 hi
  have ho := hS.order d hd
  rcases h with h | h
  · have := ho.lt_of_le_of_lt (a := x) (b := regionMax) (c := searchMin) (hx d hd).2 h
    rw [(hw d hd).1] at this; cases this
  · have := ho.lt_of_lt_of_le (a := searchMax) (b := regionMin) (c := x) h (hx d hd).1
    rw [(hw d hd).2] at this; cases this

/-- The three-way treatment of a child in `queryRectangle` yields the leaves of the child that
are in the search range, provided the leaves of the child lie in the region of the child. -/
theorem queryRectangleRec_child {S : Strategy α} {D : Nat} (hS : S.Lawful D)
    (searchMin searchMax : α) {child : Node α} (hsh : child.Shaped) (regionMin regionMax : α)
    (depth : Nat) (hw : ∀ x ∈ child.leaves, Within S D regionMin regionMax x)
    (ih : queryRectangleRec S D searchMin searchMax child regionMin regionMax depth =
      some (child.leaves.filter (valueInSearchRange S D searchMin searchMax))) :
    (if regionContained S D searchMin searchMax regionMin regionMax then reportSubtree child
      else if regionIntersects S D searchMin searchMax regionMin regionMax then
        queryRectangleRec S D searchMin searchMax child regionMin regionMax depth
      else some []) =
      some (child.leaves.filter (valueInSearchRange S D searchMin searchMax)) := by
  by_cases hc : regionContained S D searchMin searchMax regionMin regionMax = true
  · rw [if_pos hc, reportSubtree_of_shaped hsh]
    congr 1
    symm
    rw [List.filter_eq_self]
    intro x hx
    exact (valueInSearchRange_iff S D _ _ _).2 (within_of_regionContained hS hc (hw x hx))
  · rw [if_neg hc]
    by_cases hi : regionIntersects S D searchMin searchMax regionMin regionMax = true
    · rw [if_pos hi, ih]
    · rw [if_neg hi]
      congr 1
      symm
      rw [List.filter_eq_nil_iff]
      intro x hx hin
      have hi' : regionIntersects S D searchMin searchMax regionMin regionMax = false := by
        simpa using hi
      exact not_within_of_not_regionIntersects hS hi' (hw x hx)
        ((valueInSearchRange_iff S D _ _ _).1 hin)

/-- The leaves on the left of a node lie in the left region. -/
theorem within_leftRegion {S : Strategy α} {D : Nat} (hS : S.Lawful D) {axis : Nat}
    (hax : axis < D) {regionMin regionMax value x : α}
    (hx : Within S D regionMin regionMax x) (hle : S.LESS value x axis = false) :
    Within S D (copyAxes S D S.NEW regionMin)
      (S.SET (copyAxes S D S.NEW regionMax) value axis) x := by
  intro d hd
  refine ⟨?_, ?_⟩
  · rw [(copyAxes_axisEq hS S.NEW regionMin d hd x).2]; exact (hx d hd).1
  · by_cases hda : d = axis
    · subst hda
      rw [(hS.set_same d hd _ value x).1]; exact hle
    · rw [(hS.set_other axis d hax hd hda _ value x).1,
        (copyAxes_axisEq hS S.NEW regionMax d hd x).1]
      exact (hx d hd).2

/-- The leaves on the right of a node lie in the right region. -/
theorem within_rightRegion {S : Strategy α} {D : Nat} (hS : S.Lawful D) {axis : Nat}
    (hax : axis < D) {regionMin regionMax value x : α}
    (hx : Within S D regionMin regionMax x) (hge : S.LESS x value axis = false) :
    Within S D (S.SET (copyAxes S D S.NEW regionMin) value axis)
      (copyAxes S D S.NEW regionMax) x := by
  intro d hd
  refine ⟨?_, ?_⟩
  · by_cases hda : d = axis
    · subst hda
      rw [(hS.set_same d hd _ value x).2]; exact hge
    · rw [(hS.set_other axis d hax hd hda _ value x).2,
        (copyAxes_axisEq hS S.NEW regionMin d hd x).2]
      exact (hx d hd).1
  · rw [(copyAxes_axisEq hS S.NEW regionMax d hd x).1]; exact (hx d hd).2

/-- The recursive query returns the leaves that are in the search range, in leaf order, when
the leaves of the node lie in the region passed for it. -/
theorem queryRectangleRec_eq_filter {S : Strategy α} {D : Nat} (hS : S.Lawful D) (hD : 0 < D)
    (searchMin searchMax : α) {node : Node α} (hsh : node.Shaped) :
    ∀ (regionMin regionMax : α) (depth : Nat), node.Ordered S D depth →
      (∀ x ∈ node.leaves, Within S D regionMin regionMax x) →
      queryRectangleRec S D searchMin searchMax node regionMin regionMax depth =
        some (node.leaves.filter (valueInSearchRange S D searchMin searchMax)) := by
  induction hsh with
  | leaf value =>
    intro regionMin regionMax depth _ _
    simp only [queryRectangleRec, nodeInSearchRange, Node.leaves, List.filter_cons,
      List.filter_nil]
    split <;> rfl
  | inner value left right hl hr hlS hrS ihl ihr =>
    intro regionMin regionMax depth ho hw
    have hax : depth % D < D := Nat.mod_lt _ hD
    rw [Node.leaves_mk_of_ne_null _ _ hl] at hw ⊢
    obtain ⟨hol, hor, hoL, hoR⟩ := ho
    have hwl : ∀ x ∈ left.leaves, Within S D (copyAxes S D S.NEW regionMin)
        (S.SET (copyAxes S D S.NEW regionMax) value (depth % D)) x :=
      fun x hx => within_leftRegion hS hax (hw x (List.mem_append_left _ hx)) (hol x hx)
    have hwr : ∀ x ∈ right.leaves, Within S D
        (S.SET (copyAxes S D S.NEW regionMin) value (depth % D))
        (copyAxes S D S.NEW regionMax) x :=
      fun x hx => within_rightRegion hS hax (hw x (List.mem_append_right _ hx)) (hor x hx)
    have hL := queryRectangleRec_child hS searchMin searchMax hlS _ _ (depth + 1) hwl
      (ihl _ _ _ hoL hwl)
    have hR := queryRectangleRec_child hS searchMin searchMax hrS _ _ (depth + 1) hwr
      (ihr _ _ _ hoR hwr)
    cases left with
    | null => exact absurd rfl hl
    | mk lv ll lr =>
      rw [queryRectangleRec]
      simp only [hL, hR, List.filter_append]

/-! ## The default strategy and the insertion sort satisfy the assumptions -/

theorem defaultStrategy_lawful (T : Type) [LinearOrder T]
    [DecidableRel (fun (a b : T) => a < b)] (init : T) (D : Nat) :
    (defaultStrategy T init).Lawful D where
  order := fun d _ =>
    { irrefl := fun a => by simp [defaultStrategy]
      trans := fun a b c hab hbc => by
        simp only [defaultStrategy, decide_eq_true_eq] at hab hbc ⊢
        exact lt_trans hab hbc
      cotrans := fun a b c hac => by
        simp only [defaultStrategy, decide_eq_true_eq] at hac ⊢
        exact hac.lt_or_lt (b.cell d) }
  set_same := fun d _ dst src x => by simp [defaultStrategy]
  set_other := fun d e _ _ hne dst src x => by simp [defaultStrategy, Function.update, hne]

theorem insertionPartialSort_spec :
    PartialSortSpec (insertionPartialSort : (α → α → Bool) → Nat → List α → List α) := by
  have hsorted : ∀ (lt : α → α → Bool) (l : List α), StrictWeakOrder lt →
      (List.insertionSort (fun a b => lt b a = false) l).Pairwise
        (fun a b => lt b a = false) := by
    intro lt l ho
    haveI : IsTotal α (fun a b => lt b a = false) :=
      ⟨fun a b => by
        cases hba : lt b a with
        | false => exact Or.inl rfl
        | true => exact Or.inr (ho.asymm hba)⟩
    haveI : IsTrans α (fun a b => lt b a = false) :=
      ⟨fun a b c hab hbc => ho.le_trans hab hbc⟩
    exact List.sorted_insertionSort (fun a b => lt b a = false) l
  refine ⟨?_, ?_, ?_⟩
  · intro lt middle l _ _
    exact List.perm_insertionSort _ l
  · intro lt middle l ho _
    exact (hsorted lt l ho).sublist (List.take_sublist _ _)
  · intro lt middle l ho _ a ha b hb
    have h := hsorted lt l ho
    unfold insertionPartialSort at ha hb
    rw [← List.take_append_drop middle (List.insertionSort (fun a b => lt b a = false) l),
      List.pairwise_append] at h
    exact h.2.2 a ha b hb

/-! ## The constructor and the public query -/

/-- What the constructor returns on a non-empty list. -/
theorem construct_spec {S : Strategy α} {D : Nat}
    {partialSort : (α → α → Bool) → Nat → List α → List α}
    (hS : S.Lawful D) (hD : 0 < D) (hP : PartialSortSpec partialSort) (values : List α)
    (hne : values ≠ []) :
    ∃ tree, KDTree.construct S D partialSort values = some tree ∧ tree.root.Shaped ∧
      tree.root.leaves.Perm values ∧ tree.root.Ordered S D 0 ∧
      (∀ v ∈ tree.root.values, v ∈ values) ∧ Tight S D tree.box values := by
  cases values with
  | nil => exact absurd rfl hne
  | cons first rest =>
    obtain ⟨node, bb, hb, hsh, hperm, hord, hval, htight⟩ :=
      buildKDTree_spec hS hD hP (first :: rest).length (first :: rest) 0 _ [first]
        (by simp) (le_refl _) (initial_box_tight hS first)
    refine ⟨{ root := node, box := bb }, ?_, hsh, hperm, hord, hval, ?_⟩
    · simp only [KDTree.construct, hb, Option.map_some']
    · refine htight.congr_seen ?_
      intro e
      constructor
      · intro he
        rcases List.mem_append.1 he with h | h
        · exact hval e h
        · rw [List.mem_singleton.1 h]; exact List.mem_cons_self _ _
      · intro he
        exact List.mem_append_left _ (node.leaves_subset_values e (hperm.symm.subset he))

/-- No value is in the range of a degenerate rectangle. -/
theorem valueInSearchRange_of_degenerate {S : Strategy α} {D : Nat} (hS : S.Lawful D)
    {searchMin searchMax : α}
    (hdeg : (List.range D).any (fun d => S.LESS searchMax searchMin d) = true) (value : α) :
    valueInSearchRange S D searchMin searchMax value = false := by
  cases hv : valueInSearchRange S D searchMin searchMax value with
  | false => rfl
  | true =>
    have hw := (valueInSearchRange_iff S D _ _ _).1 hv
    obtain ⟨d, hd, hlt⟩ := List.any_eq_true.1 hdeg
    have hd' : d < D := List.mem_range.1 hd
    have := (hS.order d hd').lt_of_lt_of_le (a := searchMax) (b := searchMin) (c := value)
      hlt (hw d hd').1
    rw [(hw d hd').2] at this; cases this

/-- The public query on a well-formed tree returns the leaves in the search range. -/
theorem queryRectangle_eq_filter {S : Strategy α} {D : Nat} (hS : S.Lawful D) (hD : 0 < D)
    (tree : KDTree α) (hsh : tree.root.Shaped) (ho : tree.root.Ordered S D 0)
    (hw : ∀ x ∈ tree.root.leaves,
      Within S D tree.box.boundingBoxMin tree.box.boundingBoxMax x)
    (searchMin searchMax : α) :
    KDTree.queryRectangle S D tree searchMin searchMax =
      some (tree.root.leaves.filter (valueInSearchRange S D searchMin searchMax)) := by
  unfold KDTree.queryRectangle
  by_cases hdeg : (List.range D).any (fun d => S.LESS searchMax searchMin d) = true
  · rw [if_pos hdeg]
    congr 1
    symm
    rw [List.filter_eq_nil_iff]
    intro x _
    rw [valueInSearchRange_of_degenerate hS hdeg x]
    simp
  · rw [if_neg hdeg]
    have := queryRectangleRec_eq_filter hS hD searchMin searchMax hsh _ _ 0 ho hw
    cases hroot : tree.root with
    | null => rw [hroot] at hsh; exact absurd rfl hsh.ne_null
    | mk value left right =>
      rw [hroot] at this
      exact this

/-- The leaves of a tight box lie within it. -/
theorem Tight.within {S : Strategy α} {D : Nat} {bb : BoundingBox α} {seen : List α}
    (h : Tight S D bb seen) : ∀ x ∈ seen, Within S D bb.boundingBoxMin bb.boundingBoxMax x :=
  fun x hx d hd => ⟨(h d hd).2.1 x hx, (h d hd).2.2.2 x hx⟩

/-- Construction succeeds on every list, and every query on the tree returns the leaves in
the search range; the leaves are the input in some order. -/
theorem construct_queryRectangle {S : Strategy α} {D : Nat}
    {partialSort : (α → α → Bool) → Nat → List α → List α}
    (hS : S.Lawful D) (hD : 0 < D) (hP : PartialSortSpec partialSort) (values : List α) :
    ∃ tree, KDTree.construct S D partialSort values = some tree ∧
      tree.root.leaves.Perm values ∧
      ∀ searchMin searchMax, KDTree.queryRectangle S D tree searchMin searchMax =
        some (tree.root.leaves.filter (valueInSearchRange S D searchMin searchMax)) := by
  by_cases hne : values = []
  · subst hne
    refine ⟨_, rfl, ?_, ?_⟩
    · simp [Node.leaves]
    · intro searchMin searchMax
      simp only [KDTree.queryRectangle, Node.leaves, List.filter_nil]
      split <;> rfl
  · obtain ⟨tree, hc, hsh, hperm, hord, _, htight⟩ := construct_spec hS hD hP values hne
    refine ⟨tree, hc, hperm, fun searchMin searchMax =>
      queryRectangle_eq_filter hS hD tree hsh hord ?_ searchMin searchMax⟩
    exact fun x hx => htight.within x (hperm.subset hx)

/-! ## The claims -/

/-- C1 (completeness of the range query): for every input list, every lawful strategy and
every query rectangle, an input element `e` with `searchMin[a] ≤ e[a] ≤ searchMax[a]` on all
axes `a < D` occurs in the list that `queryRectangle` returns on the tree built from the
input; construction and query return without a fault. -/
theorem queryRectangle_complete {S : Strategy α} {D : Nat}
    {partialSort : (α → α → Bool) → Nat → List α → List α}
    (hS : S.Lawful D) (hD : 0 < D) (hP : PartialSortSpec partialSort) (values : List α)
    (searchMin searchMax e : α) (he : e ∈ values) (hin : Within S D searchMin searchMax e) :
    ∃ tree result, KDTree.construct S D partialSort values = some tree ∧
      KDTree.queryRectangle S D tree searchMin searchMax = some result ∧ e ∈ result := by
  obtain ⟨tree, hc, hperm, hq⟩ := construct_queryRectangle hS hD hP values
  refine ⟨tree, _, hc, hq searchMin searchMax, ?_⟩
  exact List.mem_filter.2 ⟨hperm.symm.subset he, (valueInSearchRange_iff S D _ _ _).2 hin⟩

/-- The completeness theorem at the data of `example1.cpp`: `e4` is in the range and is returned. -/
theorem queryRectangle_complete_witness :
    example1.e4 ∈ example1.values ∧
    Within (defaultStrategy Int 0) 5 example1.searchRectMin example1.searchRectMax example1.e4 ∧
    ∃ tree result,
      KDTree.construct (defaultStrategy Int 0) 5 insertionPartialSort example1.values =
        some tree ∧
      KDTree.queryRectangle (defaultStrategy Int 0) 5 tree example1.searchRectMin
        example1.searchRectMax = some result ∧ example1.e4 ∈ result :=
  have hmem : example1.e4 ∈ example1.values := by simp [example1.values]
  have hin : Within (defaultStrategy Int 0) 5 example1.searchRectMin example1.searchRectMax
      example1.e4 := (valueInSearchRange_iff _ _ _ _ _).1 (by decide)
  ⟨hmem, hin, queryRectangle_complete (defaultStrategy_lawful Int 0 5) (by decide)
    insertionPartialSort_spec example1.values example1.searchRectMin example1.searchRectMax
    example1.e4 hmem hin⟩

/-- C2 (soundness of the range query): for every input list, every lawful strategy and every
query rectangle, construction and query return, and every element of the returned list
satisfies `searchMin[a] ≤ v[a] ≤ searchMax[a]` on every axis `a < D`; this covers the
elements appended by `reportSubtree` in the containment branch. -/
theorem queryRectangle_sound {S : Strategy α} {D : Nat}
    {partialSort : (α → α → Bool) → Nat → List α → List α}
    (hS : S.Lawful D) (hD : 0 < D) (hP : PartialSortSpec partialSort) (values : List α)
    (searchMin searchMax : α) :
    ∃ tree result, KDTree.construct S D partialSort values = some tree ∧
      KDTree.queryRectangle S D tree searchMin searchMax = some result ∧
      ∀ v ∈ result, Within S D searchMin searchMax v := by
  obtain ⟨tree, hc, _, hq⟩ := construct_queryRectangle hS hD hP values
  refine ⟨tree, _, hc, hq searchMin searchMax, ?_⟩
  intro v hv
  exact (valueInSearchRange_iff S D _ _ _).1 (List.mem_filter.1 hv).2

/-- The soundness theorem at the data of `example1.cpp`. -/
theorem queryRectangle_sound_witness :
    ∃ tree result,
      KDTree.construct (defaultStrategy Int 0) 5 insertionPartialSort example1.values =
        some tree ∧
      KDTree.queryRectangle (defaultStrategy Int 0) 5 tree example1.searchRectMin
        example1.searchRectMax = some result ∧
      ∀ v ∈ result, Within (defaultStrategy Int 0) 5 example1.searchRectMin
        example1.searchRectMax v :=
  queryRectangle_sound (defaultStrategy_lawful Int 0 5) (by decide) insertionPartialSort_spec
    example1.values example1.searchRectMin example1.searchRectMax

/-- C3 (the scenario of `example1.cpp`): with the default strategy on five axes, whatever the
fresh buffers hold and whichever admissible `std::partial_sort` is used, building the tree
from `e1, e2, e3, e4, e5` and querying from `(0,0,0,0,0)` to `(2,2,2,2,2)` returns exactly
three matches, `e1`, `e2` and `e4` in some order, and neither `e3` nor `e5`. -/
theorem example1_result (init : Int)
    (partialSort : (ArrayPtr Int → ArrayPtr Int → Bool) → Nat → List (ArrayPtr Int) →
      List (ArrayPtr Int))
    (hP : PartialSortSpec partialSort) :
    ∃ tree result,
      KDTree.construct (defaultStrategy Int init) 5 partialSort example1.values = some tree ∧
      KDTree.queryRectangle (defaultStrategy Int init) 5 tree example1.searchRectMin
        example1.searchRectMax = some result ∧
      result.Perm [example1.e1, example1.e2, example1.e4] ∧ result.length = 3 ∧
      example1.e3 ∉ result ∧ example1.e5 ∉ result := by
  obtain ⟨tree, hc, hperm, hq⟩ :=
    construct_queryRectangle (defaultStrategy_lawful Int init 5) (by decide) hP example1.values
  have hfilter : example1.values.filter (valueInSearchRange (defaultStrategy Int init) 5
      example1.searchRectMin example1.searchRectMax) =
      [example1.e1, example1.e2, example1.e4] := by rfl
  have hres := (hperm.filter (valueInSearchRange (defaultStrategy Int init) 5
    example1.searchRectMin example1.searchRectMax))
  rw [hfilter] at hres
  refine ⟨tree, _, hc, hq _ _, hres, hres.length_eq, ?_, ?_⟩
  · intro h
    have := hres.subset h
    simp only [List.mem_cons, List.mem_singleton, List.not_mem_nil, or_false] at this
    rcases this with h | h | h <;>
      exact absurd (congrArg ArrayPtr.addr h) (by decide)
  · intro h
    have := hres.subset h
    simp only [List.mem_cons, List.mem_singleton, List.not_mem_nil, or_false] at this
    rcases this with h | h | h <;>
      exact absurd (congrArg ArrayPtr.addr h) (by decide)

/-- The scenario theorem with fresh buffers of zeros and the insertion sort. -/
theorem example1_result_witness :
    ∃ tree result,
      KDTree.construct (defaultStrategy Int 0) 5 insertionPartialSort example1.values =
        some tree ∧
      KDTree.queryRectangle (defaultStrategy Int 0) 5 tree example1.searchRectMin
        example1.searchRectMax = some result ∧
      result.Perm [example1.e1, example1.e2, example1.e4] ∧ result.length = 3 ∧
      example1.e3 ∉ result ∧ example1.e5 ∉ result :=
  example1_result 0 insertionPartialSort insertionPartialSort_spec

/-- C4 (querying with the bounding box): for every non-empty input list, `queryRectangle`
with `searchMin = boundingBoxMin` and `searchMax = boundingBoxMax` returns every value the
tree stores; the result has as many entries as the input and is a permutation of it. -/
theorem queryRectangle_boundingBox {S : Strategy α} {D : Nat}
    {partialSort : (α → α → Bool) → Nat → List α → List α}
    (hS : S.Lawful D) (hD : 0 < D) (hP : PartialSortSpec partialSort) (values : List α)
    (hne : values ≠ []) :
    ∃ tree result, KDTree.construct S D partialSort values = some tree ∧
      KDTree.queryRectangle S D tree tree.box.boundingBoxMin tree.box.boundingBoxMax =
        some result ∧
      (∀ v ∈ tree.root.values, v ∈ result) ∧ result.length = values.length ∧
      result.Perm values := by
  obtain ⟨tree, hc, hsh, hperm, hord, hval, htight⟩ := construct_spec hS hD hP values hne
  have hw : ∀ x ∈ tree.root.leaves,
      Within S D tree.box.boundingBoxMin tree.box.boundingBoxMax x :=
    fun x hx => htight.within x (hperm.subset hx)
  have hq := queryRectangle_eq_filter hS hD tree hsh hord hw tree.box.boundingBoxMin
    tree.box.boundingBoxMax
  have hall : tree.root.leaves.filter (valueInSearchRange S D tree.box.boundingBoxMin
      tree.box.boundingBoxMax) = tree.root.leaves := by
    rw [List.filter_eq_self]
    exact fun x hx => (valueInSearchRange_iff S D _ _ _).2 (hw x hx)
  rw [hall] at hq
  exact ⟨tree, _, hc, hq, fun v hv => hperm.symm.subset (hval v hv), hperm.length_eq, hperm⟩

/-- The bounding-box query theorem at the data of `example1.cpp`. -/
theorem queryRectangle_boundingBox_witness :
    example1.values ≠ [] ∧
    ∃ tree result,
      KDTree.construct (defaultStrategy Int 0) 5 insertionPartialSort example1.values =
        some tree ∧
      KDTree.queryRectangle (defaultStrategy Int 0) 5 tree tree.box.boundingBoxMin
        tree.box.boundingBoxMax = some result ∧
      (∀ v ∈ tree.root.values, v ∈ result) ∧ result.length = example1.values.length ∧
      result.Perm example1.values :=
  ⟨by simp [example1.values],
    queryRectangle_boundingBox (defaultStrategy_lawful Int 0 5) (by decide)
      insertionPartialSort_spec example1.values (by simp [example1.values])⟩

/-- A rectangle that is enlarged on every axis keeps every value of the smaller range. -/
theorem within_mono {S : Strategy α} {D : Nat} (hS : S.Lawful D)
    {searchMin searchMax searchMin' searchMax' x : α}
    (hmin : ∀ d, d < D → S.LESS searchMin searchMin' d = false)
    (hmax : ∀ d, d < D → S.LESS searchMax' searchMax d = false)
    (hx : Within S D searchMin searchMax x) : Within S D searchMin' searchMax' x := by
  intro d hd
  have ho := hS.order d hd
  exact ⟨ho.le_trans (a := searchMin') (b := searchMin) (c := x) (hmin d hd) (hx d hd).1,
    ho.le_trans (a := x) (b := searchMax) (c := searchMax') (hx d hd).2 (hmax d hd)⟩

/-- C5 (monotonicity in the rectangle): for every tree the constructor builds and two
rectangles that agree on all axes but `a`, where the second is the enlargement of the first
(`searchMin'[a] ≤ searchMin[a]` and `searchMax[a] ≤ searchMax'[a]`), the result for the first
is a sublist of the result for the second, so every element occurs in the second result at
least as often as in the first. -/
theorem queryRectangle_mono {S : Strategy α} {D : Nat}
    {partialSort : (α → α → Bool) → Nat → List α → List α}
    (hS : S.Lawful D) (hD : 0 < D) (hP : PartialSortSpec partialSort) (values : List α)
    (searchMin searchMax searchMin' searchMax' : α) (a : Nat)
    (hagree : ∀ d, d < D → d ≠ a →
      (S.LESS searchMin searchMin' d = false ∧ S.LESS searchMin' searchMin d = false) ∧
      (S.LESS searchMax searchMax' d = false ∧ S.LESS searchMax' searchMax d = false))
    (hmin : S.LESS searchMin searchMin' a = false)
    (hmax : S.LESS searchMax' searchMax a = false) :
    ∃ tree result result', KDTree.construct S D partialSort values = some tree ∧
      KDTree.queryRectangle S D tree searchMin searchMax = some result ∧
      KDTree.queryRectangle S D tree searchMin' searchMax' = some result' ∧
      result.Sublist result' ∧ ∀ e ∈ result, e ∈ result' := by
  obtain ⟨tree, hc, _, hq⟩ := construct_queryRectangle hS hD hP values
  have hsub : (tree.root.leaves.filter (valueInSearchRange S D searchMin searchMax)).Sublist
      (tree.root.leaves.filter (valueInSearchRange S D searchMin' searchMax')) := by
    refine List.monotone_filter_right _ ?_
    intro x hx
    have hx' : valueInSearchRange S D searchMin searchMax x = true := hx
    refine (valueInSearchRange_iff S D _ _ _).2 (within_mono hS ?_ ?_
      ((valueInSearchRange_iff S D _ _ _).1 hx'))
    · intro d hd
      by_cases hda : d = a
      · rw [hda]; exact hmin
      · exact (hagree d hd hda).1.1
    · intro d hd
      by_cases hda : d = a
      · rw [hda]; exact hmax
      · exact (hagree d hd hda).2.2
  exact ⟨tree, _, _, hc, hq searchMin searchMax, hq searchMin' searchMax', hsub, hsub.subset⟩

/-- The monotonicity theorem at the data of `example1.cpp`, the upper corner raised on axis 4. -/
theorem queryRectangle_mono_witness :
    ∃ tree result result',
      KDTree.construct (defaultStrategy Int 0) 5 insertionPartialSort example1.values =
        some tree ∧
      KDTree.queryRectangle (defaultStrategy Int 0) 5 tree example1.searchRectMin
        example1.searchRectMax = some result ∧
      KDTree.queryRectangle (defaultStrategy Int 0) 5 tree example1.searchRectMin
        example1.searchRectMaxRaised = some result' ∧
      result.Sublist result' ∧ ∀ e ∈ result, e ∈ result' :=
  queryRectangle_mono (defaultStrategy_lawful Int 0 5) (by decide) insertionPartialSort_spec
    example1.values example1.searchRectMin example1.searchRectMax example1.searchRectMin
    example1.searchRectMaxRaised 4 (by decide) (by decide)
    (by decide)

/-- C6 (degenerate rectangle): for every tree, whatever its root and box, and every rectangle
with `searchMax[a] < searchMin[a]` on some axis `a < D`, `queryRectangle` returns the empty
list; it returns before the root is looked at, so without a fault. -/
theorem queryRectangle_degenerate (S : Strategy α) (D : Nat) (tree : KDTree α)
    (searchMin searchMax : α) (a : Nat) (ha : a < D)
    (hdeg : S.LESS searchMax searchMin a = true) :
    KDTree.queryRectangle S D tree searchMin searchMax = some [] := by
  unfold KDTree.queryRectangle
  rw [if_pos]
  exact List.any_eq_true.2 ⟨a, List.mem_range.2 ha, hdeg⟩

/-- The degenerate-rectangle theorem at a tree with a one-child root and the corners of
`example1.cpp` swapped. -/
theorem queryRectangle_degenerate_witness :
    KDTree.queryRectangle (defaultStrategy Int 0) 5
      { root := .mk example1.e1 (.mk example1.e2 .null .null) .null,
        box := { boundingBoxMin := example1.e1, boundingBoxMax := example1.e1 } }
      example1.searchRectMax example1.searchRectMin = some [] :=
  queryRectangle_degenerate (defaultStrategy Int 0) 5 _ example1.searchRectMax
    example1.searchRectMin 3 (by decide) (by decide)

/-- C7 (empty input): the constructor on the empty list returns a tree whose root is null,
and every query on that tree returns the empty list, without a fault. -/
theorem construct_empty (S : Strategy α) (D : Nat)
    (partialSort : (α → α → Bool) → Nat → List α → List α) :
    ∃ tree, KDTree.construct S D partialSort [] = some tree ∧ tree.root = .null ∧
      ∀ searchMin searchMax, KDTree.queryRectangle S D tree searchMin searchMax = some [] := by
  refine ⟨_, rfl, rfl, ?_⟩
  intro searchMin searchMax
  simp only [KDTree.queryRectangle]
  split <;> rfl

/-- Two elements with the same coordinate on an axis: neither is below the other. -/
theorem AxisEq.not_less {S : Strategy α} {D : Nat} (hS : S.Lawful D) {d : Nat} (hd : d < D)
    {a b : α} (h : AxisEq S d a b) : S.LESS a b d = false ∧ S.LESS b a d = false :=
  ⟨by rw [(h b).1]; exact (hS.order d hd).irrefl b,
   by rw [(h b).2]; exact (hS.order d hd).irrefl b⟩

/-- C8 (the finished bounding box): for every non-empty input list and every axis `a < D`,
after construction `boundingBoxMin[a]` is the least and `boundingBoxMax[a]` the greatest
`a`-coordinate of the input: each corner coordinate is that of some input element (neither
is below the other) and no input element is below the min or above the max; every value
stored in a node lies inside the box. -/
theorem boundingBox_smallest {S : Strategy α} {D : Nat}
    {partialSort : (α → α → Bool) → Nat → List α → List α}
    (hS : S.Lawful D) (hD : 0 < D) (hP : PartialSortSpec partialSort) (values : List α)
    (hne : values ≠ []) :
    ∃ tree, KDTree.construct S D partialSort values = some tree ∧
      (∀ a, a < D →
        (∃ e ∈ values, S.LESS tree.box.boundingBoxMin e a = false ∧
          S.LESS e tree.box.boundingBoxMin a = false) ∧
        (∀ e ∈ values, S.LESS e tree.box.boundingBoxMin a = false) ∧
        (∃ e ∈ values, S.LESS tree.box.boundingBoxMax e a = false ∧
          S.LESS e tree.box.boundingBoxMax a = false) ∧
        (∀ e ∈ values, S.LESS tree.box.boundingBoxMax e a = false)) ∧
      (∀ v ∈ tree.root.values,
        Within S D tree.box.boundingBoxMin tree.box.boundingBoxMax v) := by
  obtain ⟨tree, hc, _, _, _, hval, htight⟩ := construct_spec hS hD hP values hne
  refine ⟨tree, hc, ?_, fun v hv => htight.within v (hval v hv)⟩
  intro a ha
  obtain ⟨⟨e₁, he₁, h₁⟩, h₂, ⟨e₂, he₂, h₃⟩, h₄⟩ := htight a ha
  exact ⟨⟨e₁, he₁, h₁.not_less hS ha⟩, h₂, ⟨e₂, he₂, h₃.not_less hS ha⟩, h₄⟩

/-- The bounding-box theorem at the data of `example1.cpp`. -/
theorem boundingBox_smallest_witness :
    example1.values ≠ [] ∧
    ∃ tree,
      KDTree.construct (defaultStrategy Int 0) 5 insertionPartialSort example1.values =
        some tree ∧
      (∀ a, a < 5 →
        (∃ e ∈ example1.values,
          (defaultStrategy Int 0).LESS tree.box.boundingBoxMin e a = false ∧
          (defaultStrategy Int 0).LESS e tree.box.boundingBoxMin a = false) ∧
        (∀ e ∈ example1.values,
          (defaultStrategy Int 0).LESS e tree.box.boundingBoxMin a = false) ∧
        (∃ e ∈ example1.values,
          (defaultStrategy Int 0).LESS tree.box.boundingBoxMax e a = false ∧
          (defaultStrategy Int 0).LESS e tree.box.boundingBoxMax a = false) ∧
        (∀ e ∈ example1.values,
          (defaultStrategy Int 0).LESS tree.box.boundingBoxMax e a = false)) ∧
      (∀ v ∈ tree.root.values,
        Within (defaultStrategy Int 0) 5 tree.box.boundingBoxMin tree.box.boundingBoxMax v) :=
  ⟨by simp [example1.values],
    boundingBox_smallest (defaultStrategy_lawful Int 0 5) (by decide)
      insertionPartialSort_spec example1.values (by simp [example1.values])⟩

/-- In a well-shaped tree every node has no child or two. -/
theorem Node.Shaped.nodes_shape {n : Node α} (h : n.Shaped) :
    ∀ value left right, Node.mk value left right ∈ n.nodes →
      (left = .null ∧ right = .null) ∨ (left ≠ .null ∧ right ≠ .null) := by
  induction h with
  | leaf v =>
    intro value left right hmem
    simp only [Node.nodes, List.append_nil, List.mem_singleton, Node.mk.injEq] at hmem
    exact Or.inl ⟨hmem.2.1, hmem.2.2⟩
  | inner v l r hl hr _ _ ihl ihr =>
    intro value left right hmem
    simp only [Node.nodes, List.mem_cons, List.mem_append, Node.mk.injEq] at hmem
    rcases hmem with ⟨_, h1, h2⟩ | hmem | hmem
    · exact Or.inr ⟨h1 ▸ hl, h2 ▸ hr⟩
    · exact ihl value left right hmem
    · exact ihr value left right hmem

/-- C9 (node shape): in the tree built from a non-empty input list the root is not null and
every node has either two null children or two non-null children; so a node whose left
pointer is null is a leaf, and `reportSubtree` on the root returns without a fault. -/
theorem construct_node_shape {S : Strategy α} {D : Nat}
    {partialSort : (α → α → Bool) → Nat → List α → List α}
    (hS : S.Lawful D) (hD : 0 < D) (hP : PartialSortSpec partialSort) (values : List α)
    (hne : values ≠ []) :
    ∃ tree, KDTree.construct S D partialSort values = some tree ∧ tree.root ≠ .null ∧
      (∀ value left right, Node.mk value left right ∈ tree.root.nodes →
        ((left = .null ∧ right = .null) ∨ (left ≠ .null ∧ right ≠ .null)) ∧
        (left = .null → right = .null)) ∧
      reportSubtree tree.root = some tree.root.leaves := by
  obtain ⟨tree, hc, hsh, _⟩ := construct_spec hS hD hP values hne
  refine ⟨tree, hc, hsh.ne_null, ?_, reportSubtree_of_shaped hsh⟩
  intro value left right hmem
  have h := hsh.nodes_shape value left right hmem
  refine ⟨h, fun hl => ?_⟩
  rcases h with h | h
  · exact h.2
  · exact absurd hl h.1

/-- The node-shape theorem at the data of `example1.cpp`. -/
theorem construct_node_shape_witness :
    example1.values ≠ [] ∧
    ∃ tree,
      KDTree.construct (defaultStrategy Int 0) 5 insertionPartialSort example1.values =
        some tree ∧ tree.root ≠ .null ∧
      (∀ value left right, Node.mk value left right ∈ tree.root.nodes →
        ((left = .null ∧ right = .null) ∨ (left ≠ .null ∧ right ≠ .null)) ∧
        (left = .null → right = .null)) ∧
      reportSubtree tree.root = some tree.root.leaves :=
  ⟨by simp [example1.values],
    construct_node_shape (defaultStrategy_lawful Int 0 5) (by decide)
      insertionPartialSort_spec example1.values (by simp [example1.values])⟩

/-- The result of a query is a sub-permutation of the input. -/
theorem construct_queryRectangle_subperm {S : Strategy α} {D : Nat}
    {partialSort : (α → α → Bool) → Nat → List α → List α}
    (hS : S.Lawful D) (hD : 0 < D) (hP : PartialSortSpec partialSort) (values : List α)
    (searchMin searchMax : α) :
    ∃ tree result, KDTree.construct S D partialSort values = some tree ∧
      KDTree.queryRectangle S D tree searchMin searchMax = some result ∧
      result.Subperm values := by
  obtain ⟨tree, hc, hperm, hq⟩ := construct_queryRectangle hS hD hP values
  exact ⟨tree, _, hc, hq searchMin searchMax,
    (List.filter_sublist _).subperm.trans hperm.subperm⟩

/-- C10, as stated, fails: there is no lawful strategy, admissible sort, input list, query
rectangle and element such that `queryRectangle` returns the element more times than it
occurs in the input list. -/
theorem no_result_exceeds_input :
    ¬ ∃ (β : Type) (_ : DecidableEq β) (S : Strategy β) (D : Nat)
        (partialSort : (β → β → Bool) → Nat → List β → List β) (values : List β)
        (searchMin searchMax : β) (tree : KDTree β) (result : List β) (e : β),
        S.Lawful D ∧ 0 < D ∧ PartialSortSpec partialSort ∧
        KDTree.construct S D partialSort values = some tree ∧
        KDTree.queryRectangle S D tree searchMin searchMax = some result ∧
        values.count e < result.count e := by
  rintro ⟨β, _, S, D, partialSort, values, searchMin, searchMax, tree, result, e, hS, hD, hP,
    hc, hq, hlt⟩
  obtain ⟨tree', result', hc', hq', hsub⟩ :=
    construct_queryRectangle_subperm hS hD hP values searchMin searchMax
  rw [hc] at hc'
  cases hc'
  rw [hq] at hq'
  cases hq'
  exact absurd (hsub.count_le e) (by omega)

/-- C10, amended: the pivot that is stored again as a leaf of the right subtree does not
change the multiplicity of results. For every input list and every query rectangle, also one
that contains a child region reported through `reportSubtree`, the list `queryRectangle`
returns is a sub-permutation of the input list: no element is returned more times than it
occurs in the input. -/
theorem queryRectangle_subperm_input {S : Strategy α} {D : Nat}
    {partialSort : (α → α → Bool) → Nat → List α → List α}
    (hS : S.Lawful D) (hD : 0 < D) (hP : PartialSortSpec partialSort) (values : List α)
    (searchMin searchMax : α) :
    ∃ tree result, KDTree.construct S D partialSort values = some tree ∧
      KDTree.queryRectangle S D tree searchMin searchMax = some result ∧
      result.Subperm values :=
  construct_queryRectangle_subperm hS hD hP values searchMin searchMax

/-- The multiplicity theorem at the data of `example1.cpp`. -/
theorem queryRectangle_subperm_input_witness :
    ∃ tree result,
      KDTree.construct (defaultStrategy Int 0) 5 insertionPartialSort example1.values =
        some tree ∧
      KDTree.queryRectangle (defaultStrategy Int 0) 5 tree example1.searchRectMin
        example1.searchRectMax = some result ∧
      result.Subperm example1.values :=
  queryRectangle_subperm_input (defaultStrategy_lawful Int 0 5) (by decide)
    insertionPartialSort_spec example1.values example1.searchRectMin example1.searchRectMax

/-! ## The strategy of `example2.cpp` -/

theorem example2_strategy_lawful : example2.strategy.Lawful 3 where
  order := fun d hd => by
    have hd3 : d = 0 ∨ d = 1 ∨ d = 2 := by omega
    rcases hd3 with rfl | rfl | rfl
    · exact
        { irrefl := fun a => by simp [example2.strategy, P_less]
          trans := fun a b c hab hbc => by
            simp only [example2.strategy, P_less, if_true, decide_eq_true_eq] at hab hbc ⊢
            exact lt_trans hab hbc
          cotrans := fun a b c hac => by
            simp only [example2.strategy, P_less, if_true, decide_eq_true_eq] at hac ⊢
            exact hac.lt_or_lt b.d0 }
    · exact
        { irrefl := fun a => by simp [example2.strategy, P_less]
          trans := fun a b c hab hbc => by
            simp only [example2.strategy, P_less, if_true, decide_eq_true_eq, one_ne_zero,
              if_false] at hab hbc ⊢
            exact lt_trans hab hbc
          cotrans := fun a b c hac => by
            simp only [example2.strategy, P_less, if_true, decide_eq_true_eq, one_ne_zero,
              if_false] at hac ⊢
            exact hac.lt_or_lt b.d1 }
    · exact
        { irrefl := fun a => by simp [example2.strategy, P_less]
          trans := fun a b c hab hbc => by
            simp only [example2.strategy, P_less, if_true, decide_eq_true_eq, OfNat.ofNat_ne_zero,
              OfNat.ofNat_ne_one, if_false] at hab hbc ⊢
            exact lt_trans hab hbc
          cotrans := fun a b c hac => by
            simp only [example2.strategy, P_less, if_true, decide_eq_true_eq, OfNat.ofNat_ne_zero,
              OfNat.ofNat_ne_one, if_false] at hac ⊢
            exact hac.lt_or_lt b.d2 }
  set_same := fun d hd dst src x => by
    have hd3 : d = 0 ∨ d = 1 ∨ d = 2 := by omega
    rcases hd3 with rfl | rfl | rfl <;> simp [example2.strategy, P_less, P_set]
  set_other := fun d e hd he hne dst src x => by
    have hd3 : d = 0 ∨ d = 1 ∨ d = 2 := by omega
    have he3 : e = 0 ∨ e = 1 ∨ e = 2 := by omega
    rcases hd3 with rfl | rfl | rfl <;> rcases he3 with rfl | rfl | rfl <;>
      first
        | exact absurd rfl hne
        | simp [example2.strategy, P_less, P_set]

/-- Which of the five objects of `example2.cpp` lie in its search range. -/
theorem example2_inRange :
    example2.values.filter (valueInSearchRange example2.strategy 3
      example2.searchRectMin example2.searchRectMax) = [example2.p2, example2.p3] := by
  have h1 : valueInSearchRange example2.strategy 3 example2.searchRectMin
      example2.searchRectMax example2.p1 = false := by
    simp [valueInSearchRange, example2.strategy, P_less, List.range_succ, example2.p1,
      example2.searchRectMin, example2.searchRectMax, String.lt_iff_toList_lt]
    decide
  have h2 : valueInSearchRange example2.strategy 3 example2.searchRectMin
      example2.searchRectMax example2.p2 = true := by
    simp [valueInSearchRange, example2.strategy, P_less, List.range_succ, example2.p2,
      example2.searchRectMin, example2.searchRectMax, String.lt_iff_toList_lt]
    decide
  have h3 : valueInSearchRange example2.strategy 3 example2.searchRectMin
      example2.searchRectMax example2.p3 = true := by
    simp [valueInSearchRange, example2.strategy, P_less, List.range_succ, example2.p3,
      example2.searchRectMin, example2.searchRectMax, String.lt_iff_toList_lt]
    decide
  have h4 : valueInSearchRange example2.strategy 3 example2.searchRectMin
      example2.searchRectMax example2.p4 = false := by
    simp [valueInSearchRange, example2.strategy, P_less, List.range_succ, example2.p4,
      example2.searchRectMin, example2.searchRectMax, String.lt_iff_toList_lt]
    intro h
    exact absurd h (by norm_num)
  have h5 : valueInSearchRange example2.strategy 3 example2.searchRectMin
      example2.searchRectMax example2.p5 = false := by
    simp [valueInSearchRange, example2.strategy, P_less, List.range_succ, example2.p5,
      example2.searchRectMin, example2.searchRectMax, String.lt_iff_toList_lt]
    decide
  simp only [example2.values, List.filter, h1, h2, h3, h4, h5]

/-- C11 (the scenario of `example2.cpp`): with the strategy `P_new`, `P_set`, `P_less` on
three axes (integer, numeric and lexicographic string order) and whichever admissible
`std::partial_sort`, building the tree from `p1` to `p5` and querying from `(0, 0, "b")` to
`(2, 6, "d")` returns exactly the two objects tagged `"b"` and `"c"`, in some order, and none
of `p1`, `p4`, `p5`. -/
theorem example2_result
    (partialSort : (P → P → Bool) → Nat → List P → List P)
    (hP : PartialSortSpec partialSort) :
    ∃ tree result,
      KDTree.construct example2.strategy 3 partialSort example2.values = some tree ∧
      KDTree.queryRectangle example2.strategy 3 tree example2.searchRectMin
        example2.searchRectMax = some result ∧
      result.Perm [example2.p2, example2.p3] ∧ result.length = 2 ∧
      example2.p1 ∉ result ∧ example2.p4 ∉ result ∧ example2.p5 ∉ result := by
  obtain ⟨tree, hc, hperm, hq⟩ :=
    construct_queryRectangle example2_strategy_lawful (by decide) hP example2.values
  have hres := (hperm.filter (valueInSearchRange example2.strategy 3
    example2.searchRectMin example2.searchRectMax))
  rw [example2_inRange] at hres
  refine ⟨tree, _, hc, hq _ _, hres, hres.length_eq, ?_, ?_, ?_⟩
  · intro h
    have := hres.subset h
    simp only [List.mem_cons, List.mem_singleton, List.not_mem_nil, or_false] at this
    rcases this with h | h <;> exact absurd (congrArg P.d0 h) (by decide)
  · intro h
    have := hres.subset h
    simp only [List.mem_cons, List.mem_singleton, List.not_mem_nil, or_false] at this
    rcases this with h | h <;> exact absurd (congrArg P.d1 h) (by decide)
  · intro h
    have := hres.subset h
    simp only [List.mem_cons, List.mem_singleton, List.not_mem_nil, or_false] at this
    rcases this with h | h <;> exact absurd (congrArg P.d2 h) (by decide)

/-- The scenario theorem of `example2.cpp` with the insertion sort. -/
theorem example2_result_witness :
    ∃ tree result,
      KDTree.construct example2.strategy 3 insertionPartialSort example2.values = some tree ∧
      KDTree.queryRectangle example2.strategy 3 tree example2.searchRectMin
        example2.searchRectMax = some result ∧
      result.Perm [example2.p2, example2.p3] ∧ result.length = 2 ∧
      example2.p1 ∉ result ∧ example2.p4 ∉ result ∧ example2.p5 ∉ result :=
  example2_result insertionPartialSort insertionPartialSort_spec

/-! ## The recursion of the builder -/

/-- The node that `buildKDTree` returns is built from its arguments as `BuiltFrom` says. -/
theorem buildKDTree_builtFrom {S : Strategy α} {D : Nat}
    {partialSort : (α → α → Bool) → Nat → List α → List α} :
    ∀ (fuel : Nat) (values : List α) (depth : Nat) (bb : BoundingBox α) (node : Node α)
      (bb' : BoundingBox α),
      buildKDTree S D partialSort fuel values depth bb = some (node, bb') →
      BuiltFrom S D partialSort values depth node := by
  intro fuel
  induction fuel with
  | zero =>
    intro values depth bb node bb' h
    simp [buildKDTree] at h
  | succ fuel ih =>
    intro values depth bb node bb' h
    rw [buildKDTree] at h
    by_cases h1 : values.length = 1
    · obtain ⟨x, rfl⟩ := List.length_eq_one.1 h1
      simp only [List.length_singleton, if_true, List.head?_cons, updateBoundingBox,
        Option.map_some', Option.some.injEq, Prod.mk.injEq] at h
      rw [← h.1]
      exact BuiltFrom.leaf x depth
    · by_cases hpos : values.length > 0
      · simp only [h1, hpos, if_false, if_true] at h
        split at h
        · cases h
        · rename_i leftNode bb1 hl
          split at h
          · cases h
          · rename_i rightNode bb2 hr
            split at h
            · cases h
            · rename_i atPivot hget
              simp only [updateBoundingBox, Option.map_some', Option.some.injEq,
                Prod.mk.injEq] at h
              rw [← h.1]
              exact BuiltFrom.inner values depth atPivot leftNode rightNode (by omega) hget
                (ih _ _ _ _ _ hl) (ih _ _ _ _ _ hr)
      · simp [h1, hpos, updateBoundingBox] at h

/-- What an admissible partial sort at the pivot gives for a list of two or more elements. -/
theorem partialSort_pivot {S : Strategy α} {D : Nat}
    {partialSort : (α → α → Bool) → Nat → List α → List α}
    (hS : S.Lawful D) (hD : 0 < D) (hP : PartialSortSpec partialSort) (values : List α)
    (depth : Nat) (hn : 2 ≤ values.length) :
    (partialSort (fun i j => S.LESS i j (depth % D)) (values.length / 2 + 1) values).Perm
      values ∧
    (partialSort (fun i j => S.LESS i j (depth % D)) (values.length / 2 + 1) values).length =
      values.length ∧
    ((partialSort (fun i j => S.LESS i j (depth % D)) (values.length / 2 + 1) values).take
      (values.length / 2)).length = values.length / 2 ∧
    ((partialSort (fun i j => S.LESS i j (depth % D)) (values.length / 2 + 1) values).drop
      (values.length / 2)).length = values.length - values.length / 2 := by
  have ho := hS.order (depth % D) (Nat.mod_lt _ hD)
  have hperm := hP.perm _ (values.length / 2 + 1) values ho (by omega)
  have hlen := hperm.length_eq
  refine ⟨hperm, hlen, ?_, ?_⟩
  · rw [List.length_take]; omega
  · rw [List.length_drop]; omega

/-- A tree built from a list is well shaped, its leaves are the list in some order, and the
list is not empty. -/
theorem BuiltFrom.leaves_perm {S : Strategy α} {D : Nat}
    {partialSort : (α → α → Bool) → Nat → List α → List α}
    (hS : S.Lawful D) (hD : 0 < D) (hP : PartialSortSpec partialSort)
    {values : List α} {depth : Nat} {node : Node α}
    (h : BuiltFrom S D partialSort values depth node) :
    node.Shaped ∧ node.leaves.Perm values ∧ values ≠ [] := by
  induction h with
  | leaf front depth =>
    exact ⟨Node.Shaped.leaf front, by simp [Node.leaves], by simp⟩
  | inner values depth atPivot leftNode rightNode hn _ _ _ ihl ihr =>
    obtain ⟨hlS, hlP, _⟩ := ihl
    obtain ⟨hrS, hrP, _⟩ := ihr
    obtain ⟨hperm, _, _, _⟩ := partialSort_pivot hS hD hP values depth hn
    refine ⟨Node.Shaped.inner _ _ _ hlS.ne_null hrS.ne_null hlS hrS, ?_, ?_⟩
    · rw [Node.leaves_mk_of_ne_null _ _ hlS.ne_null]
      refine ((hlP.append hrP).trans ?_).trans hperm
      rw [List.take_append_drop]
    · intro h0
      rw [h0] at hn
      simp at hn

/-- Every node of a built tree is itself built from some list, at its depth. -/
theorem BuiltFrom.of_mem_nodesAt {S : Strategy α} {D : Nat}
    {partialSort : (α → α → Bool) → Nat → List α → List α}
    {values : List α} {depth : Nat} {node : Node α}
    (h : BuiltFrom S D partialSort values depth node) :
    ∀ d m, (d, m) ∈ node.nodesAt depth → ∃ input, BuiltFrom S D partialSort input d m := by
  induction h with
  | leaf front depth =>
    intro d m hm
    simp only [Node.nodesAt, List.append_nil, List.mem_singleton, Prod.mk.injEq] at hm
    rw [hm.1, hm.2]
    exact ⟨[front], BuiltFrom.leaf front depth⟩
  | inner values depth atPivot leftNode rightNode hn hget hl hr ihl ihr =>
    intro d m hm
    simp only [Node.nodesAt, List.mem_cons, List.mem_append, Prod.mk.injEq] at hm
    rcases hm with ⟨h1, h2⟩ | hm | hm
    · rw [h1, h2]
      exact ⟨values, BuiltFrom.inner values depth atPivot leftNode rightNode hn hget hl hr⟩
    · exact ihl d m hm
    · exact ihr d m hm

/-- The k-d ordering holds at every node of an ordered tree, for the depth of the node. -/
theorem Node.Ordered.at_node {S : Strategy α} {D : Nat} :
    ∀ (node : Node α) (depth : Nat), node.Ordered S D depth →
      ∀ d m, (d, m) ∈ node.nodesAt depth → m.Ordered S D d := by
  intro node
  induction node with
  | null => intro depth _ d m hm; simp [Node.nodesAt] at hm
  | mk value left right ihl ihr =>
    intro depth ho d m hm
    simp only [Node.nodesAt, List.mem_cons, List.mem_append, Prod.mk.injEq] at hm
    rcases hm with ⟨h1, h2⟩ | hm | hm
    · rw [h1, h2]; exact ho
    · exact ihl (depth + 1) ho.2.2.1 d m hm
    · exact ihr (depth + 1) ho.2.2.2 d m hm

/-- The value stored in an internal node has rank `n / 2` in the list the node is built from:
some arrangement of the list is in order on the axis of the node and has the value at index
`n / 2`. -/
theorem BuiltFrom.pivot_rank {S : Strategy α} {D : Nat}
    {partialSort : (α → α → Bool) → Nat → List α → List α}
    (hS : S.Lawful D) (hD : 0 < D) (hP : PartialSortSpec partialSort)
    {input : List α} {d : Nat} {value : α} {left right : Node α}
    (h : BuiltFrom S D partialSort input d (.mk value left right)) (hl : left ≠ .null) :
    ∃ sortedInput : List α, sortedInput.Perm input ∧
      sortedInput.Pairwise (fun a b => S.LESS b a (d % D) = false) ∧
      sortedInput[input.length / 2]? = some value := by
  cases h with
  | leaf => exact absurd rfl hl
  | inner _ _ _ _ _ hn hget _ _ =>
    have ho := hS.order (d % D) (Nat.mod_lt _ hD)
    have hmid : input.length / 2 + 1 ≤ input.length := by omega
    have hperm := hP.perm _ _ input ho hmid
    have hsorted := hP.sorted _ _ input ho hmid
    have hrest := hP.rest _ _ input ho hmid
    generalize partialSort (fun i j => S.LESS i j (d % D)) (input.length / 2 + 1) input =
      sorted at hperm hsorted hrest hget
    have hslen : sorted.length = input.length := hperm.length_eq
    have htperm := insertionPartialSort_spec.perm (fun i j => S.LESS i j (d % D))
      (sorted.drop (input.length / 2 + 1)).length (sorted.drop (input.length / 2 + 1)) ho
      (le_refl _)
    have htsorted := insertionPartialSort_spec.sorted (fun i j => S.LESS i j (d % D))
      (sorted.drop (input.length / 2 + 1)).length (sorted.drop (input.length / 2 + 1)) ho
      (le_refl _)
    rw [List.take_of_length_le (le_of_eq htperm.length_eq)] at htsorted
    refine ⟨sorted.take (input.length / 2 + 1) ++
      insertionPartialSort (fun i j => S.LESS i j (d % D))
        (sorted.drop (input.length / 2 + 1)).length (sorted.drop (input.length / 2 + 1)),
      ?_, ?_, ?_⟩
    · refine ((List.Perm.append_left _ htperm).trans ?_).trans hperm
      rw [List.take_append_drop]
    · rw [List.pairwise_append]
      exact ⟨hsorted, htsorted, fun a ha b hb => hrest a ha b (htperm.subset hb)⟩
    · rw [List.getElem?_append_left (by rw [List.length_take]; omega),
        List.getElem?_take_of_succ]
      exact hget

/-- C12 (the k-d ordering of the built tree): for every non-empty input list, every internal
node of the built tree at depth `d` (the root at depth `0`), with axis `d % D`, is built by
`buildKDTree` from a list `input` of `n` elements which are the leaves below the node; the
stored value is the rank-`n / 2` element of `input` on that axis (an arrangement of `input`
in order on the axis has it at index `n / 2`); every leaf value of the left subtree is not
above the stored value and every leaf value of the right subtree is not below it. -/
theorem built_tree_kd_ordered {S : Strategy α} {D : Nat}
    {partialSort : (α → α → Bool) → Nat → List α → List α}
    (hS : S.Lawful D) (hD : 0 < D) (hP : PartialSortSpec partialSort) (values : List α)
    (hne : values ≠ []) :
    ∃ tree, KDTree.construct S D partialSort values = some tree ∧
      ∀ d value left right, (d, Node.mk value left right) ∈ tree.root.nodesAt 0 →
        left ≠ .null →
        (∃ input sortedInput : List α,
          BuiltFrom S D partialSort input d (.mk value left right) ∧
          (Node.mk value left right).leaves.Perm input ∧
          sortedInput.Perm input ∧
          sortedInput.Pairwise (fun a b => S.LESS b a (d % D) = false) ∧
          sortedInput[input.length / 2]? = some value) ∧
        (∀ x ∈ left.leaves, S.LESS value x (d % D) = false) ∧
        (∀ x ∈ right.leaves, S.LESS x value (d % D) = false) := by
  obtain ⟨tree, hc, _, _, hord, _, _⟩ := construct_spec hS hD hP values hne
  refine ⟨tree, hc, ?_⟩
  have hbuilt : BuiltFrom S D partialSort values 0 tree.root := by
    cases values with
    | nil => exact absurd rfl hne
    | cons first rest =>
      simp only [KDTree.construct, Option.map_eq_some'] at hc
      obtain ⟨p, hp, htree⟩ := hc
      rw [← htree]
      exact buildKDTree_builtFrom _ _ _ _ p.1 p.2 hp
  intro d value left right hmem hl
  obtain ⟨input, hin⟩ := hbuilt.of_mem_nodesAt d _ hmem
  obtain ⟨sortedInput, h1, h2, h3⟩ := hin.pivot_rank hS hD hP hl
  have ho := Node.Ordered.at_node tree.root 0 hord d _ hmem
  exact ⟨⟨input, sortedInput, hin, (hin.leaves_perm hS hD hP).2.1, h1, h2, h3⟩, ho.1, ho.2.1⟩

/-- The k-d ordering theorem at the data of `example1.cpp`. -/
theorem built_tree_kd_ordered_witness :
    example1.values ≠ [] ∧
    ∃ tree,
      KDTree.construct (defaultStrategy Int 0) 5 insertionPartialSort example1.values =
        some tree ∧
      ∀ d value left right, (d, Node.mk value left right) ∈ tree.root.nodesAt 0 →
        left ≠ .null →
        (∃ input sortedInput : List (ArrayPtr Int),
          BuiltFrom (defaultStrategy Int 0) 5 insertionPartialSort input d
            (.mk value left right) ∧
          (Node.mk value left right).leaves.Perm input ∧
          sortedInput.Perm input ∧
          sortedInput.Pairwise (fun a b => (defaultStrategy Int 0).LESS b a (d % 5) = false) ∧
          sortedInput[input.length / 2]? = some value) ∧
        (∀ x ∈ left.leaves, (defaultStrategy Int 0).LESS value x (d % 5) = false) ∧
        (∀ x ∈ right.leaves, (defaultStrategy Int 0).LESS x value (d % 5) = false) :=
  ⟨by simp [example1.values],
    built_tree_kd_ordered (defaultStrategy_lawful Int 0 5) (by decide)
      insertionPartialSort_spec example1.values (by simp [example1.values])⟩

/-! ## The calls of a query -/

/-- In every call that the recursive query makes, the leaves below the node of the call lie
in the region of the call, when this holds for the first call. -/
theorem queryRectangleCalls_within {S : Strategy α} {D : Nat} (hS : S.Lawful D) (hD : 0 < D)
    (searchMin searchMax : α) {node : Node α} (hsh : node.Shaped) :
    ∀ (regionMin regionMax : α) (depth : Nat), node.Ordered S D depth →
      (∀ x ∈ node.leaves, Within S D regionMin regionMax x) →
      ∀ c ∈ queryRectangleCalls S D searchMin searchMax node regionMin regionMax depth,
        ∀ x ∈ c.node.leaves, Within S D c.regionMin c.regionMax x := by
  induction hsh with
  | leaf value =>
    intro regionMin regionMax depth _ hw c hc
    simp only [queryRectangleCalls, List.mem_singleton] at hc
    rw [hc]
    exact hw
  | inner value left right hl hr hlS hrS ihl ihr =>
    intro regionMin regionMax depth ho hw c hc
    have hax : depth % D < D := Nat.mod_lt _ hD
    have hw' := hw
    rw [Node.leaves_mk_of_ne_null _ _ hl] at hw'
    obtain ⟨hol, hor, hoL, hoR⟩ := ho
    have hwl : ∀ x ∈ left.leaves, Within S D (copyAxes S D S.NEW regionMin)
        (S.SET (copyAxes S D S.NEW regionMax) value (depth % D)) x :=
      fun x hx => within_leftRegion hS hax (hw' x (List.mem_append_left _ hx)) (hol x hx)
    have hwr : ∀ x ∈ right.leaves, Within S D
        (S.SET (copyAxes S D S.NEW regionMin) value (depth % D))
        (copyAxes S D S.NEW regionMax) x :=
      fun x hx => within_rightRegion hS hax (hw' x (List.mem_append_right _ hx)) (hor x hx)
    have hL := queryRectangleRec_child hS searchMin searchMax hlS _ _ (depth + 1) hwl
      (queryRectangleRec_eq_filter hS hD searchMin searchMax hlS _ _ _ hoL hwl)
    cases left with
    | null => exact absurd rfl hl
    | mk lv ll lr =>
      rw [queryRectangleCalls] at hc
      simp only [hL, List.mem_cons, List.mem_append] at hc
      rcases hc with hc | hc | hc
      · rw [hc]; exact hw
      · split at hc
        · rw [List.mem_singleton.1 hc]; exact hwl
        · split at hc
          · exact ihl _ _ _ hoL hwl c hc
          · simp at hc
      · split at hc
        · rw [List.mem_singleton.1 hc]; exact hwr
        · split at hc
          · exact ihr _ _ _ hoR hwr c hc
          · simp at hc

/-- C13 (the region invariant of the query walk): on the tree built from a non-empty list
and for every search rectangle, in every recursive call of `queryRectangle` that the public
query makes and in every call of `reportSubtree` from the containment branch, every leaf
value below the node of the call lies inside the region of the call; when the rectangle is
not degenerate the first call is on the root with the bounding box as region, at depth `0`.
The regions of the later calls are the ones the code derives for the children. -/
theorem queryRectangle_region_invariant {S : Strategy α} {D : Nat}
    {partialSort : (α → α → Bool) → Nat → List α → List α}
    (hS : S.Lawful D) (hD : 0 < D) (hP : PartialSortSpec partialSort) (values : List α)
    (hne : values ≠ []) :
    ∃ tree, KDTree.construct S D partialSort values = some tree ∧
      ∀ searchMin searchMax,
        (∀ c ∈ KDTree.queryRectangleCalls S D tree searchMin searchMax,
          ∀ x ∈ c.node.leaves, ∀ a, a < D →
            S.LESS x c.regionMin a = false ∧ S.LESS c.regionMax x a = false) ∧
        ((List.range D).any (fun d => S.LESS searchMax searchMin d) = false →
          ∃ rest, KDTree.queryRectangleCalls S D tree searchMin searchMax =
            { isReport := false, node := tree.root, regionMin := tree.box.boundingBoxMin,
              regionMax := tree.box.boundingBoxMax, depth := 0 } :: rest) := by
  obtain ⟨tree, hc, hsh, hperm, hord, _, htight⟩ := construct_spec hS hD hP values hne
  have hw : ∀ x ∈ tree.root.leaves,
      Within S D tree.box.boundingBoxMin tree.box.boundingBoxMax x :=
    fun x hx => htight.within x (hperm.subset hx)
  refine ⟨tree, hc, fun searchMin searchMax => ⟨?_, ?_⟩⟩
  · intro c hmem
    unfold KDTree.queryRectangleCalls at hmem
    split at hmem
    · simp at hmem
    · have hall := queryRectangleCalls_within hS hD searchMin searchMax hsh _ _ 0 hord hw
      cases hroot : tree.root with
      | null => rw [hroot] at hmem; simp at hmem
      | mk value left right =>
        rw [hroot] at hmem hall
        exact hall c hmem
  · intro hnd
    unfold KDTree.queryRectangleCalls
    rw [hnd]
    cases hroot : tree.root with
    | null => rw [hroot] at hsh; exact absurd rfl hsh.ne_null
    | mk value left right =>
      simp only [Bool.false_eq_true, if_false]
      cases left with
      | null => rw [queryRectangleCalls]; exact ⟨_, rfl⟩
      | mk lv ll lr => rw [queryRectangleCalls]; exact ⟨_, rfl⟩

/-- The region invariant at the data of `example1.cpp`. -/
theorem queryRectangle_region_invariant_witness :
    example1.values ≠ [] ∧
    ∃ tree,
      KDTree.construct (defaultStrategy Int 0) 5 insertionPartialSort example1.values =
        some tree ∧
      ∀ searchMin searchMax,
        (∀ c ∈ KDTree.queryRectangleCalls (defaultStrategy Int 0) 5 tree searchMin searchMax,
          ∀ x ∈ c.node.leaves, ∀ a, a < 5 →
            (defaultStrategy Int 0).LESS x c.regionMin a = false ∧
            (defaultStrategy Int 0).LESS c.regionMax x a = false) ∧
        ((List.range 5).any (fun d => (defaultStrategy Int 0).LESS searchMax searchMin d) =
            false →
          ∃ rest,
            KDTree.queryRectangleCalls (defaultStrategy Int 0) 5 tree searchMin searchMax =
              { isReport := false, node := tree.root, regionMin := tree.box.boundingBoxMin,
                regionMax := tree.box.boundingBoxMax, depth := 0 } :: rest) :=
  ⟨by simp [example1.values],
    queryRectangle_region_invariant (defaultStrategy_lawful Int 0 5) (by decide)
      insertionPartialSort_spec example1.values (by simp [example1.values])⟩

/-! ## The `else if` of `updateBoundingBox` -/

/-- When the corners are in order on an axis, a value is not both below the min and above the
max on that axis. -/
theorem less_min_max_exclusive {S : Strategy α} {D : Nat} (hS : S.Lawful D) {d : Nat}
    (hd : d < D) {bb : BoundingBox α} (value : α)
    (hmm : S.LESS bb.boundingBoxMax bb.boundingBoxMin d = false)
    (hmin : S.LESS value bb.boundingBoxMin d = true) :
    S.LESS bb.boundingBoxMax value d = false := by
  cases hmax : S.LESS bb.boundingBoxMax value d with
  | false => rfl
  | true =>
    have := (hS.order d hd).trans _ _ _ hmax hmin
    rw [hmm] at this; cases this

/-- One iteration with `else if` equals one iteration with two independent checks, when the
two conditions exclude each other. -/
theorem updateBoundingBoxAxis_eq_independent (S : Strategy α) (value : α)
    (bb : BoundingBox α) (d : Nat)
    (hex : S.LESS value bb.boundingBoxMin d = true → S.LESS bb.boundingBoxMax value d = false) :
    updateBoundingBoxAxis S value bb d = updateBoundingBoxAxisIndependent S value bb d := by
  unfold updateBoundingBoxAxis updateBoundingBoxAxisIndependent
  by_cases c₁ : S.LESS value bb.boundingBoxMin d = true
  · simp only [c₁, if_true, hex c₁, Bool.false_eq_true, if_false]
  · simp only [c₁, Bool.false_eq_true, if_false]

/-- The loop of `updateBoundingBox`, axis by axis: on every axis the new min is the lower of
the old min and the value, the new max the higher of the old max and the value, and the loop
with independent checks gives the same box. -/
theorem updateBoundingBox_loop_minmax {S : Strategy α} {D : Nat} (hS : S.Lawful D) (value : α)
    (bb : BoundingBox α)
    (hmm : ∀ a, a < D → S.LESS bb.boundingBoxMax bb.boundingBoxMin a = false) :
    (List.range D).foldl (updateBoundingBoxAxisIndependent S value) bb =
      (List.range D).foldl (updateBoundingBoxAxis S value) bb ∧
    ∀ a, a < D →
      AxisEq S a ((List.range D).foldl (updateBoundingBoxAxis S value) bb).boundingBoxMin
        (if S.LESS value bb.boundingBoxMin a then value else bb.boundingBoxMin) ∧
      AxisEq S a ((List.range D).foldl (updateBoundingBoxAxis S value) bb).boundingBoxMax
        (if S.LESS bb.boundingBoxMax value a then value else bb.boundingBoxMax) := by
  have key : ∀ n, n ≤ D →
      (List.range n).foldl (updateBoundingBoxAxisIndependent S value) bb =
        (List.range n).foldl (updateBoundingBoxAxis S value) bb ∧
      (∀ a, a < n →
        AxisEq S a ((List.range n).foldl (updateBoundingBoxAxis S value) bb).boundingBoxMin
          (if S.LESS value bb.boundingBoxMin a then value else bb.boundingBoxMin) ∧
        AxisEq S a ((List.range n).foldl (updateBoundingBoxAxis S value) bb).boundingBoxMax
          (if S.LESS bb.boundingBoxMax value a then value else bb.boundingBoxMax)) ∧
      (∀ a, n ≤ a → a < D →
        AxisEq S a ((List.range n).foldl (updateBoundingBoxAxis S value) bb).boundingBoxMin
          bb.boundingBoxMin ∧
        AxisEq S a ((List.range n).foldl (updateBoundingBoxAxis S value) bb).boundingBoxMax
          bb.boundingBoxMax) := by
    intro n
    induction n with
    | zero =>
      intro _
      exact ⟨rfl, fun a ha => by omega, fun a _ _ => ⟨AxisEq.refl S a _, AxisEq.refl S a _⟩⟩
    | succ n ih =>
      intro hn
      obtain ⟨ih₁, ih₂, ih₃⟩ := ih (by omega)
      have hnD : n < D := by omega
      obtain ⟨hmin, hmax⟩ := ih₃ n (le_refl n) hnD
      rw [List.range_succ, List.foldl_append, List.foldl_append]
      simp only [List.foldl_cons, List.foldl_nil]
      generalize (List.range n).foldl (updateBoundingBoxAxis S value) bb = cur at *
      have e₁ : S.LESS value cur.boundingBoxMin n = S.LESS value bb.boundingBoxMin n :=
        (hmin value).2
      have e₂ : S.LESS cur.boundingBoxMax value n = S.LESS bb.boundingBoxMax value n :=
        (hmax value).1
      have hex : S.LESS value bb.boundingBoxMin n = true →
          S.LESS bb.boundingBoxMax value n = false :=
        less_min_max_exclusive hS hnD value (hmm n hnD)
      refine ⟨?_, ?_, ?_⟩
      · rw [ih₁]
        exact (updateBoundingBoxAxis_eq_independent S value cur n
          (by rw [e₁, e₂]; exact hex)).symm
      · intro a ha
        by_cases han : a = n
        · subst han
          unfold updateBoundingBoxAxis
          rw [e₁, e₂]
          by_cases c₁ : S.LESS value bb.boundingBoxMin a = true
          · simp only [c₁, if_true, hex c₁, Bool.false_eq_true, if_false]
            exact ⟨hS.set_same a hnD _ _, hmax⟩
          · simp only [c₁, Bool.false_eq_true, if_false]
            by_cases c₂ : S.LESS bb.boundingBoxMax value a = true
            · simp only [c₂, if_true]
              exact ⟨hmin, hS.set_same a hnD _ _⟩
            · simp only [c₂, Bool.false_eq_true, if_false]
              exact ⟨hmin, hmax⟩
        · have ho := updateBoundingBoxAxis_other hS value cur hnD (show a < D by omega) han
          have := ih₂ a (by omega)
          exact ⟨ho.1.trans this.1, ho.2.trans this.2⟩
      · intro a hna ha
        have ho := updateBoundingBoxAxis_other hS value cur hnD ha (show a ≠ n by omega)
        have := ih₃ a (by omega) ha
        exact ⟨ho.1.trans this.1, ho.2.trans this.2⟩
  exact ⟨(key D (le_refl D)).1, (key D (le_refl D)).2.1⟩

/-- C14 (the bounding-box update and its `else if`): the box the constructor starts from has
`min[a] ≤ max[a]` on every axis; every call of `updateBoundingBox` on a box with
`min[a] ≤ max[a]` returns a box with `min[a] ≤ max[a]`; for such a box the two checks exclude
each other, the new `min[a]` is the lower of the old `min[a]` and `v[a]`, the new `max[a]`
the higher of the old `max[a]` and `v[a]`, and the update with two independent checks
returns the same box. -/
theorem updateBoundingBox_else_if {S : Strategy α} {D : Nat} (hS : S.Lawful D) :
    (∀ first a, a < D →
      S.LESS (copyAxes S D S.NEW first) (copyAxes S D S.NEW first) a = false) ∧
    ∀ (bb : BoundingBox α) (value : α) (left right : Node α),
      (∀ a, a < D → S.LESS bb.boundingBoxMax bb.boundingBoxMin a = false) →
      ∃ bb', updateBoundingBox S D bb (.mk value left right) = some bb' ∧
        (∀ a, a < D → S.LESS bb'.boundingBoxMax bb'.boundingBoxMin a = false) ∧
        (∀ a, a < D → ¬ (S.LESS value bb.boundingBoxMin a = true ∧
          S.LESS bb.boundingBoxMax value a = true)) ∧
        (∀ a, a < D →
          AxisEq S a bb'.boundingBoxMin
            (if S.LESS value bb.boundingBoxMin a then value else bb.boundingBoxMin) ∧
          AxisEq S a bb'.boundingBoxMax
            (if S.LESS bb.boundingBoxMax value a then value else bb.boundingBoxMax)) ∧
        updateBoundingBoxIndependent S D bb (.mk value left right) = some bb' := by
  refine ⟨fun first a ha => (hS.order a ha).irrefl _, ?_⟩
  intro bb value left right hmm
  obtain ⟨heq, hax⟩ := updateBoundingBox_loop_minmax hS value bb hmm
  have hex : ∀ a, a < D → S.LESS value bb.boundingBoxMin a = true →
      S.LESS bb.boundingBoxMax value a = false :=
    fun a ha => less_min_max_exclusive hS ha value (hmm a ha)
  refine ⟨_, rfl, ?_, ?_, hax, ?_⟩
  · intro a ha
    obtain ⟨hmin, hmax⟩ := hax a ha
    rw [(hmax _).1, (hmin _).2]
    by_cases c₁ : S.LESS value bb.boundingBoxMin a = true
    · simp only [c₁, if_true, hex a ha c₁, Bool.false_eq_true, if_false]
    · by_cases c₂ : S.LESS bb.boundingBoxMax value a = true
      · simp only [c₁, c₂, Bool.false_eq_true, if_true, if_false]
      · simp only [c₁, c₂, Bool.false_eq_true, if_false]
        exact hmm a ha
  · intro a ha h
    have := hex a ha h.1
    rw [h.2] at this; cases this
  · simp only [updateBoundingBoxIndependent, heq]

/-- The update theorem at the default strategy, for the box of `e1` and the value `e3`. -/
theorem updateBoundingBox_else_if_witness :
    (∀ a, a < 5 → (defaultStrategy Int 0).LESS example1.e1 example1.e1 a = false) ∧
    ∃ bb', updateBoundingBox (defaultStrategy Int 0) 5
        { boundingBoxMin := example1.e1, boundingBoxMax := example1.e1 }
        (.mk example1.e3 .null .null) = some bb' ∧
      (∀ a, a < 5 →
        (defaultStrategy Int 0).LESS bb'.boundingBoxMax bb'.boundingBoxMin a = false) ∧
      updateBoundingBoxIndependent (defaultStrategy Int 0) 5
        { boundingBoxMin := example1.e1, boundingBoxMax := example1.e1 }
        (.mk example1.e3 .null .null) = some bb' :=
  have hmm : ∀ a, a < 5 → (defaultStrategy Int 0).LESS example1.e1 example1.e1 a = false :=
    by decide
  have h := (updateBoundingBox_else_if (defaultStrategy_lawful Int 0 5)).2
    { boundingBoxMin := example1.e1, boundingBoxMax := example1.e1 } example1.e3 .null .null hmm
  ⟨hmm, h.elim fun bb' hb => ⟨bb', hb.1, hb.2.1, hb.2.2.2.2⟩⟩

/-! ## Leaves and internal nodes of the built tree -/

theorem Node.isInternal_mk_of_ne_null (value : α) {left : Node α} (right : Node α)
    (h : left ≠ .null) : (Node.mk value left right).isInternal = true := by
  cases left with
  | null => exact absurd rfl h
  | mk _ _ _ => rfl

/-- A tree built from `n` elements has `n - 1` internal nodes. -/
theorem BuiltFrom.internal_count {S : Strategy α} {D : Nat}
    {partialSort : (α → α → Bool) → Nat → List α → List α}
    (hS : S.Lawful D) (hD : 0 < D) (hP : PartialSortSpec partialSort)
    {values : List α} {depth : Nat} {node : Node α}
    (h : BuiltFrom S D partialSort values depth node) :
    (node.nodes.filter Node.isInternal).length + 1 = values.length := by
  induction h with
  | leaf front depth => simp [Node.nodes, Node.isInternal]
  | inner values depth atPivot leftNode rightNode hn _ hl hr ihl ihr =>
    obtain ⟨_, _, htake, hdrop⟩ := partialSort_pivot hS hD hP values depth hn
    have hlne := (hl.leaves_perm hS hD hP).1.ne_null
    rw [htake] at ihl
    rw [hdrop] at ihr
    simp only [Node.nodes, List.filter_cons, Node.isInternal_mk_of_ne_null _ _ hlne, if_true,
      List.filter_append, List.length_cons, List.length_append]
    omega

/-- The value stored in an internal node of a built tree is a leaf of its right subtree. -/
theorem BuiltFrom.pivot_mem_right {S : Strategy α} {D : Nat}
    {partialSort : (α → α → Bool) → Nat → List α → List α}
    (hS : S.Lawful D) (hD : 0 < D) (hP : PartialSortSpec partialSort)
    {values : List α} {depth : Nat} {node : Node α}
    (h : BuiltFrom S D partialSort values depth node) :
    ∀ value left right, Node.mk value left right ∈ node.nodes → left ≠ .null →
      value ∈ right.leaves := by
  induction h with
  | leaf front depth =>
    intro value left right hmem hl
    simp only [Node.nodes, List.append_nil, List.mem_singleton, Node.mk.injEq] at hmem
    exact absurd hmem.2.1 hl
  | inner values depth atPivot leftNode rightNode hn hget _ hr ihl ihr =>
    intro value left right hmem hl
    simp only [Node.nodes, List.mem_cons, List.mem_append, Node.mk.injEq] at hmem
    rcases hmem with ⟨h1, _, h3⟩ | hmem | hmem
    · rw [h1, h3]
      refine (hr.leaves_perm hS hD hP).2.1.symm.subset ?_
      obtain ⟨_, hlen, _, _⟩ := partialSort_pivot hS hD hP values depth hn
      have hlt : values.length / 2 < (partialSort (fun i j => S.LESS i j (depth % D))
          (values.length / 2 + 1) values).length := by omega
      rw [List.drop_eq_getElem_cons hlt]
      rw [List.getElem?_eq_getElem hlt] at hget
      rw [← Option.some.inj hget]
      exact List.mem_cons_self _ _
    · exact ihl value left right hmem hl
    · exact ihr value left right hmem hl

/-- The tree the constructor returns on a non-empty list is built from that list. -/
theorem construct_builtFrom {S : Strategy α} {D : Nat}
    {partialSort : (α → α → Bool) → Nat → List α → List α} {values : List α}
    {tree : KDTree α} (hne : values ≠ [])
    (hc : KDTree.construct S D partialSort values = some tree) :
    BuiltFrom S D partialSort values 0 tree.root := by
  cases values with
  | nil => exact absurd rfl hne
  | cons first rest =>
    simp only [KDTree.construct, Option.map_eq_some'] at hc
    obtain ⟨p, hp, htree⟩ := hc
    rw [← htree]
    exact buildKDTree_builtFrom _ _ _ _ p.1 p.2 hp

/-- C15 (the leaves are exactly the input): for every non-empty input list of `n` elements,
`reportSubtree` on the root of the built tree returns a permutation of the input list, the
tree has exactly `n - 1` internal nodes, and the value stored in an internal node is a leaf
of the right subtree of that node. -/
theorem leaves_are_input {S : Strategy α} {D : Nat}
    {partialSort : (α → α → Bool) → Nat → List α → List α}
    (hS : S.Lawful D) (hD : 0 < D) (hP : PartialSortSpec partialSort) (values : List α)
    (hne : values ≠ []) :
    ∃ tree all, KDTree.construct S D partialSort values = some tree ∧
      reportSubtree tree.root = some all ∧ all.Perm values ∧
      (tree.root.nodes.filter Node.isInternal).length = values.length - 1 ∧
      ∀ value left right, Node.mk value left right ∈ tree.root.nodes → left ≠ .null →
        value ∈ right.leaves := by
  obtain ⟨tree, hc, hsh, hperm, _⟩ := construct_spec hS hD hP values hne
  have hb := construct_builtFrom hne hc
  refine ⟨tree, tree.root.leaves, hc, reportSubtree_of_shaped hsh, hperm, ?_,
    hb.pivot_mem_right hS hD hP⟩
  have := hb.internal_count hS hD hP
  omega

/-- The leaves theorem at the data of `example1.cpp`. -/
theorem leaves_are_input_witness :
    example1.values ≠ [] ∧
    ∃ tree all,
      KDTree.construct (defaultStrategy Int 0) 5 insertionPartialSort example1.values =
        some tree ∧
      reportSubtree tree.root = some all ∧ all.Perm example1.values ∧
      (tree.root.nodes.filter Node.isInternal).length = example1.values.length - 1 ∧
      ∀ value left right, Node.mk value left right ∈ tree.root.nodes → left ≠ .null →
        value ∈ right.leaves :=
  ⟨by simp [example1.values],
    leaves_are_input (defaultStrategy_lawful Int 0 5) (by decide) insertionPartialSort_spec
      example1.values (by simp [example1.values])⟩

/-- C16 (the pruned query equals the unpruned traversal): for every tree built from a
non-empty input list and every rectangle, degenerate or not, `queryRectangle` returns the
same list, element for element and in the same order, as `reportSubtree` on the root
filtered by `nodeInSearchRange`. -/
theorem queryRectangle_eq_unpruned {S : Strategy α} {D : Nat}
    {partialSort : (α → α → Bool) → Nat → List α → List α}
    (hS : S.Lawful D) (hD : 0 < D) (hP : PartialSortSpec partialSort) (values : List α)
    (hne : values ≠ []) (searchMin searchMax : α) :
    ∃ tree result, KDTree.construct S D partialSort values = some tree ∧
      KDTree.queryRectangle S D tree searchMin searchMax = some result ∧
      unprunedQuery S D tree searchMin searchMax = some result := by
  obtain ⟨tree, hc, hsh, hperm, hord, _, htight⟩ := construct_spec hS hD hP values hne
  have hw : ∀ x ∈ tree.root.leaves,
      Within S D tree.box.boundingBoxMin tree.box.boundingBoxMax x :=
    fun x hx => htight.within x (hperm.subset hx)
  refine ⟨tree, _, hc, queryRectangle_eq_filter hS hD tree hsh hord hw searchMin searchMax, ?_⟩
  simp only [unprunedQuery, reportSubtree_of_shaped hsh, Option.map_some', Option.some.injEq]
  refine List.filter_congr ?_
  intro x _
  cases hx : valueInSearchRange S D searchMin searchMax x <;> simp [nodeInSearchRange, hx]

/-- The refinement theorem at the data of `example1.cpp`. -/
theorem queryRectangle_eq_unpruned_witness :
    example1.values ≠ [] ∧
    ∃ tree result,
      KDTree.construct (defaultStrategy Int 0) 5 insertionPartialSort example1.values =
        some tree ∧
      KDTree.queryRectangle (defaultStrategy Int 0) 5 tree example1.searchRectMin
        example1.searchRectMax = some result ∧
      unprunedQuery (defaultStrategy Int 0) 5 tree example1.searchRectMin
        example1.searchRectMax = some result :=
  ⟨by simp [example1.values],
    queryRectangle_eq_unpruned (defaultStrategy_lawful Int 0 5) (by decide)
      insertionPartialSort_spec example1.values (by simp [example1.values])
      example1.searchRectMin example1.searchRectMax⟩

/-! ## The calls of the builder -/

/-- On a non-empty list and with a budget of at least its length, `buildKDTree` returns a
node, whatever the box it starts from. -/
theorem buildKDTree_returns {S : Strategy α} {D : Nat}
    {partialSort : (α → α → Bool) → Nat → List α → List α}
    (hS : S.Lawful D) (hD : 0 < D) (hP : PartialSortSpec partialSort) :
    ∀ (fuel : Nat) (values : List α) (depth : Nat) (bb : BoundingBox α),
      values ≠ [] → values.length ≤ fuel →
      ∃ node bb', buildKDTree S D partialSort fuel values depth bb = some (node, bb') ∧
        node ≠ .null := by
  intro fuel
  induction fuel with
  | zero =>
    intro values depth bb hne hlen
    cases values with
    | nil => exact absurd rfl hne
    | cons a l => simp at hlen
  | succ fuel ih =>
    intro values depth bb hne hlen
    by_cases h1 : values.length = 1
    · obtain ⟨x, rfl⟩ := List.length_eq_one.1 h1
      exact ⟨.mk x .null .null, (List.range D).foldl (updateBoundingBoxAxis S x) bb,
        by simp [buildKDTree, updateBoundingBox], by simp⟩
    · have hpos : 0 < values.length := List.length_pos.2 hne
      have hn : 2 ≤ values.length := by omega
      obtain ⟨_, hlen', htake, hdrop⟩ := partialSort_pivot hS hD hP values depth hn
      generalize hsd : partialSort (fun i j => S.LESS i j (depth % D)) (values.length / 2 + 1)
        values = sorted at hlen' htake hdrop
      obtain ⟨ln, bb1, hl, _⟩ := ih (sorted.take (values.length / 2)) (depth + 1) bb
        (List.ne_nil_of_length_pos (by rw [htake]; omega)) (by rw [htake]; omega)
      obtain ⟨rn, bb2, hr, _⟩ := ih (sorted.drop (values.length / 2)) (depth + 1) bb1
        (List.ne_nil_of_length_pos (by rw [hdrop]; omega)) (by rw [hdrop]; omega)
      have hlt : values.length / 2 < sorted.length := by omega
      have hget := List.getElem?_eq_getElem hlt
      refine ⟨.mk (sorted[values.length / 2]) ln rn,
        (List.range D).foldl (updateBoundingBoxAxis S (sorted[values.length / 2])) bb2,
        ?_, by simp⟩
      rw [buildKDTree]
      simp only [h1, hpos, if_false, if_true, gt_iff_lt, hsd, hl, hr, hget, updateBoundingBox,
        Option.map_some']

/-- The calls that `buildKDTree` makes on a non-empty list, given enough budget: the call
itself and then recursive calls, each on a non-empty list that is the left part (`m / 2`
elements) or the right part (`m - m / 2` elements) of a caller with `m ≥ 2` elements. -/
theorem buildKDTreeCalls_spec {S : Strategy α} {D : Nat}
    {partialSort : (α → α → Bool) → Nat → List α → List α}
    (hS : S.Lawful D) (hD : 0 < D) (hP : PartialSortSpec partialSort) :
    ∀ (fuel : Nat) (values : List α) (depth : Nat) (bb : BoundingBox α) (caller : Option Nat),
      values ≠ [] → values.length ≤ fuel →
      ∃ rest, buildKDTreeCalls S D partialSort fuel values depth bb caller =
          some ({ values := values, depth := depth, callerSize := caller } :: rest) ∧
        ∀ c ∈ rest, c.values ≠ [] ∧ ∃ m, c.callerSize = some m ∧ 2 ≤ m ∧
          (c.values.length = m / 2 ∨ c.values.length = m - m / 2) := by
  intro fuel
  induction fuel with
  | zero =>
    intro values depth bb caller hne hlen
    cases values with
    | nil => exact absurd rfl hne
    | cons a l => simp at hlen
  | succ fuel ih =>
    intro values depth bb caller hne hlen
    by_cases h1 : values.length = 1
    · exact ⟨[], by simp [buildKDTreeCalls, h1], by simp⟩
    · have hpos : 0 < values.length := List.length_pos.2 hne
      have hn : 2 ≤ values.length := by omega
      obtain ⟨_, _, htake, hdrop⟩ := partialSort_pivot hS hD hP values depth hn
      generalize hsd : partialSort (fun i j => S.LESS i j (depth % D)) (values.length / 2 + 1)
        values = sorted at htake hdrop
      have hlne : sorted.take (values.length / 2) ≠ [] :=
        List.ne_nil_of_length_pos (by rw [htake]; omega)
      have hrne : sorted.drop (values.length / 2) ≠ [] :=
        List.ne_nil_of_length_pos (by rw [hdrop]; omega)
      obtain ⟨lrest, hlc, hlp⟩ := ih (sorted.take (values.length / 2)) (depth + 1) bb
        (some values.length) hlne (by rw [htake]; omega)
      obtain ⟨ln, bb1, hl, _⟩ := buildKDTree_returns hS hD hP fuel
        (sorted.take (values.length / 2)) (depth + 1) bb hlne (by rw [htake]; omega)
      obtain ⟨rrest, hrc, hrp⟩ := ih (sorted.drop (values.length / 2)) (depth + 1) bb1
        (some values.length) hrne (by rw [hdrop]; omega)
      refine ⟨(BuildCall.mk (sorted.take (values.length / 2)) (depth + 1)
          (some values.length) :: lrest) ++
        (BuildCall.mk (sorted.drop (values.length / 2)) (depth + 1)
          (some values.length) :: rrest), ?_, ?_⟩
      · rw [buildKDTreeCalls]
        simp only [h1, hpos, if_false, if_true, gt_iff_lt, hsd, hlc, hl, hrc]
      · intro c hc
        simp only [List.cons_append, List.mem_cons, List.mem_append] at hc
        rcases hc with hc | hc | hc | hc
        · rw [hc]
          exact ⟨hlne, values.length, rfl, hn, Or.inl htake⟩
        · exact hlp c hc
        · rw [hc]
          exact ⟨hrne, values.length, rfl, hn, Or.inr hdrop⟩
        · exact hrp c hc

/-- C17 (the empty-list branch is unreachable): when the constructor is given a non-empty
list, every call of `buildKDTree` it makes receives a non-empty list; a recursive call made
by a caller with `m` elements receives the left part of `m / 2 ≥ 1` elements or the right
part of `m - m / 2 ≥ 1` elements; the construction returns without a fault, so no call of
`updateBoundingBox` reads a null node, and the root is not null. -/
theorem build_never_empty {S : Strategy α} {D : Nat}
    {partialSort : (α → α → Bool) → Nat → List α → List α}
    (hS : S.Lawful D) (hD : 0 < D) (hP : PartialSortSpec partialSort) (values : List α)
    (hne : values ≠ []) :
    ∃ calls tree, KDTree.constructCalls S D partialSort values = some calls ∧
      calls.head? = some { values := values, depth := 0, callerSize := none } ∧
      (∀ c ∈ calls, c.values ≠ []) ∧
      (∀ c ∈ calls, ∀ m, c.callerSize = some m →
        (c.values.length = m / 2 ∨ c.values.length = m - m / 2) ∧
        1 ≤ m / 2 ∧ 1 ≤ m - m / 2) ∧
      KDTree.construct S D partialSort values = some tree ∧ tree.root ≠ .null := by
  obtain ⟨tree, hc, hsh, _⟩ := construct_spec hS hD hP values hne
  cases values with
  | nil => exact absurd rfl hne
  | cons first tail =>
    obtain ⟨rest, hcalls, hrest⟩ := buildKDTreeCalls_spec hS hD hP (first :: tail).length
      (first :: tail) 0
      { boundingBoxMin := copyAxes S D S.NEW first, boundingBoxMax := copyAxes S D S.NEW first }
      none hne (le_refl _)
    refine ⟨_, tree, hcalls, rfl, ?_, ?_, hc, hsh.ne_null⟩
    · intro c hmem
      rcases List.mem_cons.1 hmem with h | h
      · rw [h]; exact hne
      · exact (hrest c h).1
    · intro c hmem m hm
      rcases List.mem_cons.1 hmem with h | h
      · rw [h] at hm; cases hm
      · obtain ⟨_, m', hm', h2, hlen⟩ := hrest c h
        rw [hm'] at hm
        cases hm
        exact ⟨hlen, by omega, by omega⟩

/-- The unreachability theorem at the data of `example1.cpp`. -/
theorem build_never_empty_witness :
    example1.values ≠ [] ∧
    ∃ calls tree,
      KDTree.constructCalls (defaultStrategy Int 0) 5 insertionPartialSort example1.values =
        some calls ∧
      calls.head? = some { values := example1.values, depth := 0, callerSize := none } ∧
      (∀ c ∈ calls, c.values ≠ []) ∧
      (∀ c ∈ calls, ∀ m, c.callerSize = some m →
        (c.values.length = m / 2 ∨ c.values.length = m - m / 2) ∧
        1 ≤ m / 2 ∧ 1 ≤ m - m / 2) ∧
      KDTree.construct (defaultStrategy Int 0) 5 insertionPartialSort example1.values =
        some tree ∧ tree.root ≠ .null :=
  ⟨by simp [example1.values],
    build_never_empty (defaultStrategy_lawful Int 0 5) (by decide) insertionPartialSort_spec
      example1.values (by simp [example1.values])⟩

/-- C18 (termination of `buildKDTree`): on every list, empty or not, and with any budget of
at least `max 1 n` for a list of `n` elements, the recursion of `buildKDTree` ends before
the budget is exhausted; every recursive call receives a list that is strictly shorter than
the list of its caller; on a non-empty list the call returns a node. For `n ≥ 2` the left
list has `n / 2 < n` elements and the right list `n - n / 2 < n` elements, although the
right list begins with the pivot. -/
theorem buildKDTree_terminates {S : Strategy α} {D : Nat}
    {partialSort : (α → α → Bool) → Nat → List α → List α}
    (hS : S.Lawful D) (hD : 0 < D) (hP : PartialSortSpec partialSort) (values : List α)
    (depth : Nat) (bb : BoundingBox α) (fuel : Nat) (hfuel : max 1 values.length ≤ fuel) :
    (∃ calls, buildKDTreeCalls S D partialSort fuel values depth bb none = some calls ∧
      ∀ c ∈ calls, ∀ m, c.callerSize = some m → c.values.length < m) ∧
    (values ≠ [] →
      ∃ node bb', buildKDTree S D partialSort fuel values depth bb = some (node, bb')) ∧
    (2 ≤ values.length →
      ((partialSort (fun i j => S.LESS i j (depth % D)) (values.length / 2 + 1) values).take
        (values.length / 2)).length = values.length / 2 ∧
      values.length / 2 < values.length ∧
      ((partialSort (fun i j => S.LESS i j (depth % D)) (values.length / 2 + 1) values).drop
        (values.length / 2)).length = values.length - values.length / 2 ∧
      values.length - values.length / 2 < values.length ∧
      ((partialSort (fun i j => S.LESS i j (depth % D)) (values.length / 2 + 1) values).drop
        (values.length / 2)).head? =
        (partialSort (fun i j => S.LESS i j (depth % D)) (values.length / 2 + 1)
          values)[values.length / 2]?) := by
  refine ⟨?_, ?_, ?_⟩
  · by_cases hne : values = []
    · subst hne
      cases fuel with
      | zero => simp at hfuel
      | succ fuel =>
        refine ⟨[{ values := [], depth := depth, callerSize := none }],
          by simp [buildKDTreeCalls], ?_⟩
        intro c hc m hm
        rw [List.mem_singleton.1 hc] at hm
        cases hm
    · obtain ⟨rest, hcalls, hrest⟩ := buildKDTreeCalls_spec hS hD hP fuel values depth bb none
        hne (le_trans (le_max_right 1 _) hfuel)
      refine ⟨_, hcalls, ?_⟩
      intro c hc m hm
      rcases List.mem_cons.1 hc with h | h
      · rw [h] at hm; cases hm
      · obtain ⟨_, m', hm', h2, hlen⟩ := hrest c h
        rw [hm'] at hm
        cases hm
        omega
  · intro hne
    obtain ⟨node, bb', h, _⟩ := buildKDTree_returns hS hD hP fuel values depth bb hne
      (le_trans (le_max_right 1 _) hfuel)
    exact ⟨node, bb', h⟩
  · intro hn
    obtain ⟨_, _, htake, hdrop⟩ := partialSort_pivot hS hD hP values depth hn
    exact ⟨htake, by omega, hdrop, by omega, List.head?_drop _ _⟩

/-- The termination theorem at the data of `example1.cpp`, with the budget of the
constructor. -/
theorem buildKDTree_terminates_witness :
    max 1 example1.values.length ≤ 5 ∧
    (∃ calls,
      buildKDTreeCalls (defaultStrategy Int 0) 5 insertionPartialSort 5 example1.values 0
        { boundingBoxMin := example1.e1, boundingBoxMax := example1.e1 } none = some calls ∧
      ∀ c ∈ calls, ∀ m, c.callerSize = some m → c.values.length < m) ∧
    (example1.values ≠ [] →
      ∃ node bb', buildKDTree (defaultStrategy Int 0) 5 insertionPartialSort 5
        example1.values 0 { boundingBoxMin := example1.e1, boundingBoxMax := example1.e1 } =
          some (node, bb')) :=
  have h := buildKDTree_terminates (defaultStrategy_lawful Int 0 5) (by decide)
    insertionPartialSort_spec example1.values 0
    { boundingBoxMin := example1.e1, boundingBoxMax := example1.e1 } 5 (by decide)
  ⟨by decide, h.1, h.2.1⟩

/-! ## The height of the built tree -/

theorem Node.height_mk_of_ne_null (value : α) {left : Node α} (right : Node α)
    (h : left ≠ .null) :
    (Node.mk value left right).height = 1 + max left.height right.height := by
  cases left with
  | null => exact absurd rfl h
  | mk _ _ _ => rfl

/-- The height of a tree built from `n` elements is the ceiling of the binary logarithm of
`n`. -/
theorem BuiltFrom.height_eq {S : Strategy α} {D : Nat}
    {partialSort : (α → α → Bool) → Nat → List α → List α}
    (hS : S.Lawful D) (hD : 0 < D) (hP : PartialSortSpec partialSort)
    {values : List α} {depth : Nat} {node : Node α}
    (h : BuiltFrom S D partialSort values depth node) :
    node.height = Nat.clog 2 values.length := by
  induction h with
  | leaf front depth => simp [Node.height, Nat.clog_one_right]
  | inner values depth atPivot leftNode rightNode hn _ hl _ ihl ihr =>
    obtain ⟨_, _, htake, hdrop⟩ := partialSort_pivot hS hD hP values depth hn
    have hlne := (hl.leaves_perm hS hD hP).1.ne_null
    rw [htake] at ihl
    rw [hdrop] at ihr
    rw [Node.height_mk_of_ne_null _ _ hlne, ihl, ihr,
      Nat.clog_of_two_le (by decide : 1 < 2) hn]
    have hmono : Nat.clog 2 (values.length / 2) ≤
        Nat.clog 2 (values.length - values.length / 2) :=
      Nat.clog_mono_right 2 (by omega)
    have hhalf : (values.length + 2 - 1) / 2 = values.length - values.length / 2 := by omega
    rw [hhalf, max_eq_right hmono]
    omega

/-- C19 (the built tree is balanced): for every non-empty input list of `n` elements, whatever
the values and the order, the height of the built tree (the number of edges on the longest
path from the root to a leaf) is the ceiling of the binary logarithm of `n`, the smallest `h`
with `n ≤ 2 ^ h`. -/
theorem built_tree_height {S : Strategy α} {D : Nat}
    {partialSort : (α → α → Bool) → Nat → List α → List α}
    (hS : S.Lawful D) (hD : 0 < D) (hP : PartialSortSpec partialSort) (values : List α)
    (hne : values ≠ []) :
    ∃ tree, KDTree.construct S D partialSort values = some tree ∧
      tree.root.height = Nat.clog 2 values.length ∧
      values.length ≤ 2 ^ tree.root.height ∧
      ∀ h, values.length ≤ 2 ^ h → tree.root.height ≤ h := by
  obtain ⟨tree, hc, _⟩ := construct_spec hS hD hP values hne
  have hh := (construct_builtFrom hne hc).height_eq hS hD hP
  refine ⟨tree, hc, hh, ?_, ?_⟩
  · rw [hh]; exact Nat.le_pow_clog (by decide) _
  · intro h hle
    rw [hh]; exact (Nat.le_pow_iff_clog_le (by decide)).1 hle

/-- The height theorem at the data of `example1.cpp`: five elements give height three. -/
theorem built_tree_height_witness :
    example1.values ≠ [] ∧
    ∃ tree,
      KDTree.construct (defaultStrategy Int 0) 5 insertionPartialSort example1.values =
        some tree ∧
      tree.root.height = Nat.clog 2 example1.values.length ∧
      example1.values.length ≤ 2 ^ tree.root.height ∧
      ∀ h, example1.values.length ≤ 2 ^ h → tree.root.height ≤ h :=
  ⟨by simp [example1.values],
    built_tree_height (defaultStrategy_lawful Int 0 5) (by decide) insertionPartialSort_spec
      example1.values (by simp [example1.values])⟩

/-! ## A concrete run -/

set_option maxRecDepth 8192 in
/-- With the insertion sort, the program `example1.cpp` finds `e1`, `e2` and `e4`, in this
order. -/
theorem example1_run :
    (KDTree.construct (defaultStrategy Int 0) 5 insertionPartialSort example1.values).bind
      (fun tree => KDTree.queryRectangle (defaultStrategy Int 0) 5 tree
        example1.searchRectMin example1.searchRectMax) =
      some [example1.e1, example1.e2, example1.e4] := by
  rfl

end kdtree
